import Mathlib

/-!
Verification development for the structured code-patch engine of the Aidien
repository (`src/aidien/query_processor.py`).

The engine's core is:
  * `_flexible_pattern` : compiles a literal snippet into a regex that keeps
    each line's leading indentation exact, joins the remaining tokens of a
    line with `\s+`, and joins lines with `\r?\n`;
  * `_apply_instruction` : applies one update/insert/delete instruction to a
    content string, using `pattern.subn` (update/delete) or `pattern.search`
    (insert);
  * `_apply_instructions` : groups instructions by file name and folds
    `_apply_instruction` over each group, isolating per-file failures.

We embed the strings as `List Char`.  The synthesized regexes only ever use
three constructs (escaped literal text, `\s+`, `\r?\n`), so a compiled
pattern is embedded as a `List PatElem` and the Python regex engine's
behaviour on such patterns is embedded directly:

  * `Matches` is the declarative (existence) semantics of a pattern;
  * `matchLen` is the deterministic semantics: the match length the
    backtracking engine prefers (greedy `\s+`, `\r?` resolved as in CPython);
  * `searchFirst` / `scanMatches` embed `pattern.search` and the scan
    performed by `pattern.subn` (leftmost matches; an empty match advances
    the scan by one character, as in Python >= 3.7 — note that a compiled
    snippet pattern that can match the empty string consists solely of
    empty literals and hence has no non-empty matches, so the engine's
    `must_advance` refinement never makes a difference for these patterns);
  * `parseTemplate` / `expandTemplate` embed CPython's parsing and expansion
    of the *replacement template* that `pattern.subn` applies to the
    `replace` argument (backslash escapes, octal escapes, group references);
    the synthesized patterns contain no groups, so every numbered group
    reference other than `\g<0>` is an error.

Recursions that are not structural take an explicit fuel argument; each
fueled function has a wrapper that supplies sufficient fuel, so that all
definitions evaluate by `decide`.
-/

/-- The set of characters matched by Python's `\s` for `str` patterns
(equivalently, the characters `c` with `str.isspace(c)`). -/
def pyIsSpace (c : Char) : Bool :=
  c = ' ' || c = '\t' || c = '\n' || c = '\x0b' || c = '\x0c' || c = '\r' ||
  c = '\x1c' || c = '\x1d' || c = '\x1e' || c = '\x1f' ||
  c = '\x85' || c = '\xa0' || c = '\u1680' ||
  (('\u2000' ≤ c) && (c ≤ '\u200A')) ||
  c = '\u2028' || c = '\u2029' || c = '\u202F' || c = '\u205F' || c = '\u3000'

/-- The line boundaries recognised by Python's `str.splitlines`. -/
def isLineBreak (c : Char) : Bool :=
  c = '\n' || c = '\r' || c = '\x0b' || c = '\x0c' ||
  c = '\x1c' || c = '\x1d' || c = '\x1e' ||
  c = '\x85' || c = '\u2028' || c = '\u2029'

/-- Worker for `pySplitlines`: `acc` holds the current line reversed.
Fueled (every step consumes at least one character). -/
def pySplitlinesF : Nat → List Char → List Char → List (List Char)
  | 0, acc, _ => [acc.reverse]
  | _ + 1, acc, [] => [acc.reverse]
  | fuel + 1, acc, c :: rest =>
      if c = '\r' ∧ rest.head? = some '\n' then
        acc.reverse :: (if rest.tail.isEmpty then [] else pySplitlinesF fuel [] rest.tail)
      else if isLineBreak c then
        acc.reverse :: (if rest.isEmpty then [] else pySplitlinesF fuel [] rest)
      else pySplitlinesF fuel (c :: acc) rest

/-- Python's `str.splitlines()` (keepends = False): splits on every line
boundary, treats `\r\n` as a single boundary, and drops a trailing
boundary rather than producing a final empty line. -/
def pySplitlines (cs : List Char) : List (List Char) :=
  if cs.isEmpty then [] else pySplitlinesF (cs.length + 1) [] cs

/-- Worker for `splitTokens`: `acc` holds the current token reversed. -/
def splitTokensGo (acc : List Char) : List Char → List (List Char)
  | [] => if acc.isEmpty then [] else [acc.reverse]
  | c :: rest =>
      if pyIsSpace c then
        (if acc.isEmpty then [] else [acc.reverse]) ++ splitTokensGo [] rest
      else splitTokensGo (c :: acc) rest

/-- The non-empty tokens of a line remainder: `re.split(r'\s+', content)`
with empty pieces removed, i.e. the maximal runs of non-whitespace. -/
def splitTokens (cs : List Char) : List (List Char) :=
  splitTokensGo [] cs

/-- One element of a compiled pattern.  `_flexible_pattern` only ever emits
escaped literal text, `\s+`, and the line joiner `\r?\n`, so these three
constructors embed the full generality of its output. -/
inductive PatElem : Type
  | lit : List Char → PatElem
  | ws : PatElem
  | nl : PatElem
deriving DecidableEq, Repr

/-- The pattern tail contributed by the tokens after the first on a line:
`\s+` before each of them. -/
def tokElems (ts : List (List Char)) : List PatElem :=
  (ts.map (fun t' => [PatElem.ws, PatElem.lit t'])).flatten

/-- The per-line sub-pattern of `_flexible_pattern`: the leading whitespace
(matched by `^(\s*)` greedily) is escaped and kept verbatim; the remaining
tokens are escaped and joined with `\s+`; a line with no tokens matches
just its indentation. -/
def lineElems (line : List Char) : List PatElem :=
  let indent := line.takeWhile pyIsSpace
  let content := line.dropWhile pyIsSpace
  match splitTokens content with
  | [] => [PatElem.lit indent]
  | t :: ts => PatElem.lit indent :: PatElem.lit t :: tokElems ts

/-- `_flexible_pattern`: split into lines, build the per-line sub-patterns,
and join them with `\r?\n`. -/
def flexiblePattern (text : List Char) : List PatElem :=
  ((pySplitlines text).map lineElems).intersperse [PatElem.nl] |>.flatten

/-- Declarative semantics of a compiled pattern: `Matches W ps cs` holds
when the pattern `ps` matches exactly the text `cs`, where a `\s+` element
may consume any non-empty run of characters satisfying `W`.  The engine's
semantics is `Matches pyIsSpace`; the restriction `W` is used to state
that a match consumes no newline inside `\s+` runs. -/
inductive Matches (W : Char → Bool) : List PatElem → List Char → Prop
  | nil : Matches W [] []
  | lit (l : List Char) (ps : List PatElem) (cs : List Char) :
      Matches W ps cs → Matches W (PatElem.lit l :: ps) (l ++ cs)
  | wsOne (c : Char) (ps : List PatElem) (cs : List Char) :
      W c = true → Matches W ps cs → Matches W (PatElem.ws :: ps) (c :: cs)
  | wsMore (c : Char) (ps : List PatElem) (cs : List Char) :
      W c = true → Matches W (PatElem.ws :: ps) cs →
      Matches W (PatElem.ws :: ps) (c :: cs)
  | nlLF (ps : List PatElem) (cs : List Char) :
      Matches W ps cs → Matches W (PatElem.nl :: ps) ('\n' :: cs)
  | nlCRLF (ps : List PatElem) (cs : List Char) :
      Matches W ps cs → Matches W (PatElem.nl :: ps) ('\r' :: '\n' :: cs)

/-- `pyIsSpace` restricted to characters other than `'\n'`. -/
def wsNoNl (c : Char) : Bool := pyIsSpace c && !(c = '\n')

/-- Deterministic matching semantics at the head of a text: the length of
the match that CPython's backtracking engine produces for a compiled
snippet pattern, or `none`.  `\s+` is greedy (prefer consuming another
whitespace character, backtrack into the continuation otherwise);
`\r?\n` needs no backtracking because a failed `\r\n` step can never be
rescued by dropping the `\r`.  Fueled; `matchLen` supplies enough fuel. -/
def matchLenF : Nat → List PatElem → List Char → Option Nat
  | 0, _, _ => none
  | _ + 1, [], _ => some 0
  | fuel + 1, PatElem.lit l :: ps, cs =>
      if l.isPrefixOf cs then (matchLenF fuel ps (cs.drop l.length)).map (· + l.length)
      else none
  | fuel + 1, PatElem.ws :: ps, cs =>
      match cs with
      | [] => none
      | c :: rest =>
          if pyIsSpace c then
            match matchLenF fuel (PatElem.ws :: ps) rest with
            | some n => some (n + 1)
            | none => (matchLenF fuel ps rest).map (· + 1)
          else none
  | fuel + 1, PatElem.nl :: ps, cs =>
      match cs with
      | '\r' :: '\n' :: rest => (matchLenF fuel ps rest).map (· + 2)
      | '\n' :: rest => (matchLenF fuel ps rest).map (· + 1)
      | _ => none

/-- Every recursive call of `matchLenF` decreases `ps.length + cs.length`,
so this fuel is always sufficient. -/
def matchLen (ps : List PatElem) (cs : List Char) : Option Nat :=
  matchLenF (ps.length + cs.length + 1) ps cs

/-- `pattern.search`: try the pattern at every position from `pos` on
(including the position one past the last character) and return the first
hit as (start, length).  Fueled; `searchFirst` supplies enough fuel. -/
def searchFirstF : Nat → List PatElem → List Char → Nat → Option (Nat × Nat)
  | 0, _, _, _ => none
  | fuel + 1, ps, cs, pos =>
      match matchLen ps (cs.drop pos) with
      | some l => some (pos, l)
      | none => if pos < cs.length then searchFirstF fuel ps cs (pos + 1) else none

/-- `pattern.search content` from position 0. -/
def searchFirst (ps : List PatElem) (cs : List Char) : Option (Nat × Nat) :=
  searchFirstF (cs.length + 1) ps cs 0

/-- The scan performed by `pattern.subn`: the leftmost non-overlapping
matches as (start, length) pairs.  After a non-empty match the scan resumes
at its end; after an empty match it advances one character (Python >= 3.7
semantics; for these patterns an empty match can only come from a pattern
that matches nothing but the empty string, so the `must_advance` subtlety
is invisible).  Fueled; `scanMatches` supplies enough fuel. -/
def scanMatchesF : Nat → List PatElem → List Char → Nat → List (Nat × Nat)
  | 0, _, _, _ => []
  | fuel + 1, ps, cs, pos =>
      match matchLen ps (cs.drop pos) with
      | some l =>
          if l = 0 then
            (pos, 0) :: (if pos < cs.length then scanMatchesF fuel ps cs (pos + 1) else [])
          else (pos, l) :: scanMatchesF fuel ps cs (pos + l)
      | none => if pos < cs.length then scanMatchesF fuel ps cs (pos + 1) else []

/-- All matches replaced by `pattern.subn`, leftmost first. -/
def scanMatches (ps : List PatElem) (cs : List Char) : List (Nat × Nat) :=
  scanMatchesF (cs.length + 2) ps cs 0

/-- One piece of a parsed replacement template: a literal character, or a
reference to group 0 (the whole match).  The synthesized patterns contain
no capture groups, so every other group reference fails to parse. -/
inductive TItem : Type
  | ch : Char → TItem
  | group0 : TItem
deriving DecidableEq, Repr

/-- The ways `re.error` can arise from a replacement template against a
pattern with no capture groups. -/
inductive REErr : Type
  | badEscape : REErr
  | badEscapeEnd : REErr
  | invalidGroup : REErr
  | badGroupName : REErr
  | octalOutOfRange : REErr
deriving DecidableEq, Repr

/-- The control-character escapes CPython's template parser recognises. -/
def escMap (c : Char) : Option Char :=
  if c = 'a' then some '\x07'
  else if c = 'b' then some '\x08'
  else if c = 'f' then some '\x0c'
  else if c = 'n' then some '\n'
  else if c = 'r' then some '\r'
  else if c = 't' then some '\t'
  else if c = 'v' then some '\x0b'
  else none

def isOctDigit (c : Char) : Bool := '0' ≤ c && c ≤ '7'

def isAsciiLetter (c : Char) : Bool := ('a' ≤ c && c ≤ 'z') || ('A' ≤ c && c ≤ 'Z')

def octVal (c : Char) : Nat := c.toNat - '0'.toNat

def digitsToNat (ds : List Char) : Nat :=
  ds.foldl (fun n c => n * 10 + (c.toNat - '0'.toNat)) 0

/-- CPython's `sre_parse.parse_template` specialised to a pattern with no
capture groups (the synthesized patterns never contain groups):
  * `\\` and the control escapes map to a literal character;
  * `\g<0>` (or `\g<00>` …) refers to the whole match; `\g<n>` for `n >= 1`
    and `\g<name>` are errors, as is a malformed `\g`;
  * `\0` starts an octal escape of up to three digits, and `\d1 d2 d3` with
    three octal digits is an octal escape if its value is at most 0o377;
  * any other `\digit…` is a group reference and hence an error;
  * a backslash before any other ASCII letter is an error ("bad escape");
  * a backslash before a non-letter non-digit is kept verbatim
    (both characters appear in the output);
  * a trailing lone backslash is an error.
Fueled; `parseTemplate` supplies enough fuel. -/
def parseTemplateF : Nat → List Char → Except REErr (List TItem)
  | 0, _ => Except.error REErr.badEscape
  | _ + 1, [] => Except.ok []
  | fuel + 1, c :: rest =>
      if c = '\\' then
        match rest with
        | [] => Except.error REErr.badEscapeEnd
        | e :: rest2 =>
            if e = '\\' then
              (parseTemplateF fuel rest2).map (fun ts => TItem.ch '\\' :: ts)
            else match escMap e with
            | some ec => (parseTemplateF fuel rest2).map (fun ts => TItem.ch ec :: ts)
            | none =>
                if e = 'g' then
                  match rest2 with
                  | '<' :: rest3 =>
                      let name := rest3.takeWhile (fun c' => !(c' = '>'))
                      match rest3.drop name.length with
                      | '>' :: rest4 =>
                          if name = [] then Except.error REErr.badGroupName
                          else if name.all Char.isDigit then
                            if digitsToNat name = 0 then
                              (parseTemplateF fuel rest4).map
                                (fun ts => TItem.group0 :: ts)
                            else Except.error REErr.invalidGroup
                          else Except.error REErr.badGroupName
                      | _ => Except.error REErr.badGroupName
                  | _ => Except.error REErr.badGroupName
                else if e = '0' then
                  match rest2 with
                  | d1 :: rest3 =>
                      if isOctDigit d1 then
                        match rest3 with
                        | d2 :: rest4 =>
                            if isOctDigit d2 then
                              (parseTemplateF fuel rest4).map
                                (fun ts => TItem.ch (Char.ofNat (octVal d1 * 8 + octVal d2)) :: ts)
                            else
                              (parseTemplateF fuel rest3).map
                                (fun ts => TItem.ch (Char.ofNat (octVal d1)) :: ts)
                        | [] =>
                            (parseTemplateF fuel rest3).map
                              (fun ts => TItem.ch (Char.ofNat (octVal d1)) :: ts)
                      else
                        (parseTemplateF fuel rest2).map (fun ts => TItem.ch '\x00' :: ts)
                  | [] => (parseTemplateF fuel rest2).map (fun ts => TItem.ch '\x00' :: ts)
                else if e.isDigit then
                  match rest2 with
                  | d2 :: rest3 =>
                      if d2.isDigit then
                        if isOctDigit e && isOctDigit d2 then
                          match rest3 with
                          | d3 :: rest4 =>
                              if isOctDigit d3 then
                                if octVal e * 64 + octVal d2 * 8 + octVal d3 > 255 then
                                  Except.error REErr.octalOutOfRange
                                else
                                  (parseTemplateF fuel rest4).map
                                    (fun ts => TItem.ch
                                      (Char.ofNat (octVal e * 64 + octVal d2 * 8 + octVal d3)) :: ts)
                              else Except.error REErr.invalidGroup
                          | [] => Except.error REErr.invalidGroup
                        else Except.error REErr.invalidGroup
                      else Except.error REErr.invalidGroup
                  | [] => Except.error REErr.invalidGroup
                else if isAsciiLetter e then Except.error REErr.badEscape
                else
                  (parseTemplateF fuel rest2).map
                    (fun ts => TItem.ch '\\' :: TItem.ch e :: ts)
      else (parseTemplateF fuel rest).map (fun ts => TItem.ch c :: ts)

/-- Every step of `parseTemplateF` consumes at least one character. -/
def parseTemplate (cs : List Char) : Except REErr (List TItem) :=
  parseTemplateF (cs.length + 1) cs

/-- Expand a parsed template against the text of one match. -/
def expandTemplate (tmpl : List TItem) (matched : List Char) : List Char :=
  (tmpl.map (fun it => match it with
    | TItem.ch c => [c]
    | TItem.group0 => matched)).flatten

/-- Rebuild the content from a list of non-overlapping matches, replacing
each matched segment `(p, l)` by `repl` applied to the matched text and
keeping the gaps between matches verbatim.  `pos` is the current scan
position (the matches lie at increasing positions at or after `pos`). -/
def renderSubst (repl : List Char → List Char) (content : List Char) :
    List (Nat × Nat) → Nat → List Char
  | [], pos => content.drop pos
  | (p, l) :: ms, pos =>
      (content.drop pos).take (p - pos) ++ repl ((content.drop p).take l) ++
        renderSubst repl content ms (p + l)

deriving instance DecidableEq for Except

/-- `models.CodeInstruction`: a pydantic record with six string fields.
(`delete` is declared by the model but never read by `_apply_instruction`,
which keys the delete action on `find` as well.) -/
structure CodeInstruction : Type where
  type : List Char
  filename : List Char
  find : List Char
  replace : List Char
  write : List Char
  delete : List Char
deriving DecidableEq, Repr

/-- `_apply_instruction`: apply one instruction to `content`.
  * update (with non-empty `find` and `replace`): `pattern.subn(replace,
    content)` — the replacement template is parsed first (an invalid
    template raises `re.error` even when there are no matches), then every
    match is replaced by the expanded template;
  * insert (with non-empty `find` and `write`): splice `"\n" + write` right
    after the end of the first match, or return `content` when there is no
    match;
  * delete (with non-empty `find`): `pattern.subn("", content)`;
  * anything else returns `content` unchanged. -/
def applyInstruction (ins : CodeInstruction) (content : List Char) :
    Except REErr (List Char) :=
  if ins.type = "update".toList ∧ ins.find ≠ [] ∧ ins.replace ≠ [] then
    match parseTemplate ins.replace with
    | Except.error e => Except.error e
    | Except.ok tmpl =>
        Except.ok (renderSubst (expandTemplate tmpl) content
          (scanMatches (flexiblePattern ins.find) content) 0)
  else if ins.type = "insert".toList ∧ ins.find ≠ [] ∧ ins.write ≠ [] then
    match searchFirst (flexiblePattern ins.find) content with
    | some (p, l) =>
        Except.ok (content.take (p + l) ++ '\n' :: (ins.write ++ content.drop (p + l)))
    | none => Except.ok content
  else if ins.type = "delete".toList ∧ ins.find ≠ [] then
    Except.ok (renderSubst (fun _ => []) content
      (scanMatches (flexiblePattern ins.find) content) 0)
  else Except.ok content

/-- The in-order fold of `_apply_instruction` over one file group: each
instruction's output is the next one's input; an exception aborts the
group (the Python loop body raises out of the fold). -/
def applyList : List CodeInstruction → List Char → Except REErr (List Char)
  | [], content => Except.ok content
  | ins :: rest, content =>
      match applyInstruction ins content with
      | Except.ok c' => applyList rest c'
      | Except.error e => Except.error e

/-- The filesystem, as an association list from file names to contents. -/
def FS : Type := List (List Char × List Char)

/-- Look up a file's content (first entry wins, like a real directory). -/
def fsGet : FS → List Char → Option (List Char)
  | [], _ => none
  | (k, v) :: rest, f => if k = f then some v else fsGet rest f

/-- Overwrite an existing file's content (first entry with that name). -/
def fsSet : FS → List Char → List Char → FS
  | [], _, _ => []
  | (k, v) :: rest, f, w => if k = f then (k, w) :: rest else (k, v) :: fsSet rest f w

/-- First-occurrence deduplication (`seen` accumulates the keys already
emitted): the iteration order of a Python `defaultdict` keyed by insertion. -/
def dedupFirst (seen : List (List Char)) : List (List Char) → List (List Char)
  | [] => []
  | k :: ks =>
      if k ∈ seen then dedupFirst seen ks else k :: dedupFirst (k :: seen) ks

/-- The file names of a batch in first-appearance order, skipping
instructions whose `filename` is empty (falsy), as the grouping loop does. -/
def groupKeys (instrs : List CodeInstruction) : List (List Char) :=
  dedupFirst [] ((instrs.filter (fun i => decide (i.filename ≠ []))).map (fun i => i.filename))

/-- The file group of `f`: the subsequence of the batch targeting `f`,
in original batch order. -/
def groupOf (instrs : List CodeInstruction) (f : List Char) : List CodeInstruction :=
  instrs.filter (fun i => decide (i.filename = f))

/-- Process one file group: skip the group when the file does not exist
(with a warning); otherwise fold the group over the file's content and
write the result back, except that an exception raised while applying is
caught and leaves the file unwritten. -/
def processGroup (instrs : List CodeInstruction) (fs : FS) (f : List Char) : FS :=
  match fsGet fs f with
  | none => fs
  | some content =>
      match applyList (groupOf instrs f) content with
      | Except.ok r => fsSet fs f r
      | Except.error _ => fs

/-- `_apply_instructions`: group the batch by file name (insertion order)
and process each group independently. -/
def applyInstructions (instrs : List CodeInstruction) (fs : FS) : FS :=
  (groupKeys instrs).foldl (processGroup instrs) fs

/-- Leftmost non-overlapping count of a literal (non-pattern) needle in a
text; `occCount needle hay = 0` says the literal text occurs nowhere.
Fueled; `occCount` supplies enough fuel. -/
def occCountF : Nat → List Char → List Char → Nat
  | 0, _, _ => 0
  | _ + 1, _, [] => 0
  | fuel + 1, needle, c :: rest =>
      if needle.isPrefixOf (c :: rest) ∧ needle ≠ [] then
        occCountF fuel needle ((c :: rest).drop needle.length) + 1
      else occCountF fuel needle rest

def occCount (needle hay : List Char) : Nat :=
  occCountF (hay.length + 1) needle hay

/-- The literal needle occurs somewhere in the haystack. -/
def occursSub (needle hay : List Char) : Prop :=
  ∃ a b, hay = a ++ needle ++ b

/-- Join per-line sub-patterns with the `\r?\n` element (the generic form
of `flexiblePattern`). -/
def joinPats (Ps : List (List PatElem)) : List PatElem :=
  (Ps.intersperse [PatElem.nl]).flatten

/-- Join a list of candidate lines with a chosen joiner (`"\n"` or
`"\r\n"`) between consecutive lines. -/
def joinTxt : List (List Char) → List (List Char) → List Char
  | [], _ => []
  | [x], _ => x
  | x :: xs, [] => x ++ joinTxt xs []
  | x :: xs, j :: js => x ++ j ++ joinTxt xs js

theorem matches_mono (W W' : Char → Bool) (hW : ∀ c, W c = true → W' c = true)
    (ps : List PatElem) (t : List Char) (h : Matches W ps t) : Matches W' ps t := by
  induction h with
  | nil => exact Matches.nil
  | lit l ps cs _ ih => exact Matches.lit l ps cs ih
  | wsOne c ps cs hc _ ih => exact Matches.wsOne c ps cs (hW c hc) ih
  | wsMore c ps cs hc _ ih => exact Matches.wsMore c ps cs (hW c hc) ih
  | nlLF ps cs _ ih => exact Matches.nlLF ps cs ih
  | nlCRLF ps cs _ ih => exact Matches.nlCRLF ps cs ih

theorem matches_nil_inv (W : Char → Bool) (t : List Char)
    (h : Matches W [] t) : t = [] := by
  cases h; rfl

theorem matches_lit_inv (W : Char → Bool) (l : List Char) (ps : List PatElem)
    (t : List Char) (h : Matches W (PatElem.lit l :: ps) t) :
    ∃ b, t = l ++ b ∧ Matches W ps b := by
  cases h with
  | lit _ _ cs hcs => exact ⟨cs, rfl, hcs⟩

theorem matches_ws_inv (W : Char → Bool) (ps : List PatElem) (t : List Char)
    (h : Matches W (PatElem.ws :: ps) t) :
    ∃ u b, t = u ++ b ∧ u ≠ [] ∧ (∀ c ∈ u, W c = true) ∧ Matches W ps b := by
  generalize hq : PatElem.ws :: ps = q at h
  induction h with
  | nil => exact absurd hq (by simp)
  | lit l ps' cs _ _ => exact absurd hq (by simp)
  | wsOne c ps' cs hc hcs _ =>
      cases hq
      exact ⟨[c], cs, rfl, by simp, by simpa using hc, hcs⟩
  | wsMore c ps' cs hc _ ih =>
      cases hq
      obtain ⟨u, b, rfl, hu, hWu, hb⟩ := ih rfl
      refine ⟨c :: u, b, rfl, by simp, ?_, hb⟩
      intro c' hc'
      rcases List.mem_cons.mp hc' with h1 | h1
      · exact h1 ▸ hc
      · exact hWu c' h1
  | nlLF ps' cs _ _ => exact absurd hq (by simp)
  | nlCRLF ps' cs _ _ => exact absurd hq (by simp)

theorem matches_nl_inv (W : Char → Bool) (ps : List PatElem) (t : List Char)
    (h : Matches W (PatElem.nl :: ps) t) :
    ∃ j b, (j = ['\n'] ∨ j = ['\r', '\n']) ∧ t = j ++ b ∧ Matches W ps b := by
  cases h with
  | nlLF _ cs hcs => exact ⟨['\n'], cs, Or.inl rfl, rfl, hcs⟩
  | nlCRLF _ cs hcs => exact ⟨['\r', '\n'], cs, Or.inr rfl, rfl, hcs⟩

theorem matches_append (W : Char → Bool) (ps qs : List PatElem) (a b : List Char)
    (h1 : Matches W ps a) (h2 : Matches W qs b) :
    Matches W (ps ++ qs) (a ++ b) := by
  induction h1 with
  | nil => simpa using h2
  | lit l ps' cs _ ih =>
      have := Matches.lit (W := W) l (ps' ++ qs) (cs ++ b) ih
      simpa [List.append_assoc] using this
  | wsOne c ps' cs hc _ ih => exact Matches.wsOne c (ps' ++ qs) (cs ++ b) hc ih
  | wsMore c ps' cs hc _ ih => exact Matches.wsMore c (ps' ++ qs) (cs ++ b) hc ih
  | nlLF ps' cs _ ih => exact Matches.nlLF (ps' ++ qs) (cs ++ b) ih
  | nlCRLF ps' cs _ ih => exact Matches.nlCRLF (ps' ++ qs) (cs ++ b) ih

theorem matches_ws_chain (W : Char → Bool) (ps : List PatElem) (u b : List Char)
    (hu : u ≠ []) (hWu : ∀ c ∈ u, W c = true) (hb : Matches W ps b) :
    Matches W (PatElem.ws :: ps) (u ++ b) := by
  induction u with
  | nil => exact absurd rfl hu
  | cons c u' ih =>
      cases u' with
      | nil => exact Matches.wsOne c ps b (hWu c (by simp)) hb
      | cons c' u'' =>
          refine Matches.wsMore c ps ((c' :: u'') ++ b) (hWu c (by simp)) ?_
          exact ih (by simp) (fun x hx => hWu x (List.mem_cons_of_mem c hx))

theorem matches_append_inv (W : Char → Bool) (P : List PatElem) (t : List Char)
    (h : Matches W P t) :
    ∀ ps qs, P = ps ++ qs →
      ∃ a b, t = a ++ b ∧ Matches W ps a ∧ Matches W qs b := by
  induction h with
  | nil =>
      intro ps qs hpq
      obtain ⟨h1, h2⟩ := List.append_eq_nil.mp hpq.symm
      exact ⟨[], [], rfl, h1 ▸ Matches.nil, h2 ▸ Matches.nil⟩
  | lit l ps' cs hcs ih =>
      intro ps qs hpq
      cases ps with
      | nil =>
          have hq : qs = PatElem.lit l :: ps' := by simpa using hpq.symm
          exact ⟨[], l ++ cs, rfl, Matches.nil, hq ▸ Matches.lit l ps' cs hcs⟩
      | cons p ps'' =>
          obtain ⟨hp, hps⟩ : p = PatElem.lit l ∧ ps' = ps'' ++ qs := by
            constructor <;> [exact (List.cons.injEq _ _ _ _ ▸ hpq).1.symm;
              exact (List.cons.injEq _ _ _ _ ▸ hpq).2]
          obtain ⟨a, b, rfl, ha, hb⟩ := ih ps'' qs hps
          exact ⟨l ++ a, b, by simp [List.append_assoc], hp ▸ Matches.lit l ps'' a ha, hb⟩
  | wsOne c ps' cs hc hcs ih =>
      intro ps qs hpq
      cases ps with
      | nil =>
          have hq : qs = PatElem.ws :: ps' := by simpa using hpq.symm
          exact ⟨[], c :: cs, rfl, Matches.nil, hq ▸ Matches.wsOne c ps' cs hc hcs⟩
      | cons p ps'' =>
          obtain ⟨hp, hps⟩ : p = PatElem.ws ∧ ps' = ps'' ++ qs := by
            constructor <;> [exact (List.cons.injEq _ _ _ _ ▸ hpq).1.symm;
              exact (List.cons.injEq _ _ _ _ ▸ hpq).2]
          obtain ⟨a, b, rfl, ha, hb⟩ := ih ps'' qs hps
          exact ⟨c :: a, b, rfl, hp ▸ Matches.wsOne c ps'' a hc ha, hb⟩
  | wsMore c ps' cs hc hcs ih =>
      intro ps qs hpq
      cases ps with
      | nil =>
          have hq : qs = PatElem.ws :: ps' := by simpa using hpq.symm
          exact ⟨[], c :: cs, rfl, Matches.nil, hq ▸ Matches.wsMore c ps' cs hc hcs⟩
      | cons p ps'' =>
          obtain ⟨hp, hps⟩ : p = PatElem.ws ∧ ps' = ps'' ++ qs := by
            constructor <;> [exact (List.cons.injEq _ _ _ _ ▸ hpq).1.symm;
              exact (List.cons.injEq _ _ _ _ ▸ hpq).2]
          obtain ⟨a, b, hab, ha, hb⟩ := ih (PatElem.ws :: ps'') qs (by simp [hps])
          cases a with
          | nil => cases ha
          | cons a0 a' =>
              refine ⟨c :: a0 :: a', b, by simpa using hab, ?_, hb⟩
              exact hp ▸ Matches.wsMore c ps'' (a0 :: a') hc ha
  | nlLF ps' cs hcs ih =>
      intro ps qs hpq
      cases ps with
      | nil =>
          have hq : qs = PatElem.nl :: ps' := by simpa using hpq.symm
          exact ⟨[], '\n' :: cs, rfl, Matches.nil, hq ▸ Matches.nlLF ps' cs hcs⟩
      | cons p ps'' =>
          obtain ⟨hp, hps⟩ : p = PatElem.nl ∧ ps' = ps'' ++ qs := by
            constructor <;> [exact (List.cons.injEq _ _ _ _ ▸ hpq).1.symm;
              exact (List.cons.injEq _ _ _ _ ▸ hpq).2]
          obtain ⟨a, b, rfl, ha, hb⟩ := ih ps'' qs hps
          exact ⟨'\n' :: a, b, rfl, hp ▸ Matches.nlLF ps'' a ha, hb⟩
  | nlCRLF ps' cs hcs ih =>
      intro ps qs hpq
      cases ps with
      | nil =>
          have hq : qs = PatElem.nl :: ps' := by simpa using hpq.symm
          exact ⟨[], '\r' :: '\n' :: cs, rfl, Matches.nil, hq ▸ Matches.nlCRLF ps' cs hcs⟩
      | cons p ps'' =>
          obtain ⟨hp, hps⟩ : p = PatElem.nl ∧ ps' = ps'' ++ qs := by
            constructor <;> [exact (List.cons.injEq _ _ _ _ ▸ hpq).1.symm;
              exact (List.cons.injEq _ _ _ _ ▸ hpq).2]
          obtain ⟨a, b, rfl, ha, hb⟩ := ih ps'' qs hps
          exact ⟨'\r' :: '\n' :: a, b, rfl, hp ▸ Matches.nlCRLF ps'' a ha, hb⟩

/-- Number of `'\n'` characters in a text. -/
def countNl (t : List Char) : Nat := t.count '\n'

/-- Number of `\r?\n` elements in a pattern. -/
def nlCount (ps : List PatElem) : Nat := ps.countP (fun e => e == PatElem.nl)

/-- All literal elements of the pattern are free of `'\n'`. -/
def litNlFree (ps : List PatElem) : Prop := ∀ l, PatElem.lit l ∈ ps → '\n' ∉ l

/-- The pattern has no `\r?\n` element. -/
def nlFreePat (ps : List PatElem) : Prop := ∀ e ∈ ps, e ≠ PatElem.nl

theorem matches_countNl_ge (W : Char → Bool) (ps : List PatElem) (t : List Char)
    (h : Matches W ps t) : nlCount ps ≤ countNl t := by
  induction h with
  | nil => simp [nlCount, countNl]
  | lit l ps cs _ ih =>
      have e1 : nlCount (PatElem.lit l :: ps) = nlCount ps := by
        simp [nlCount, List.countP_cons]
      have e2 : countNl cs ≤ countNl (l ++ cs) := by
        simp [countNl, List.count_append]
      omega
  | wsOne c ps cs _ _ ih =>
      have e1 : nlCount (PatElem.ws :: ps) = nlCount ps := by
        simp [nlCount, List.countP_cons]
      have e2 : countNl cs ≤ countNl (c :: cs) := by
        by_cases hc : c = '\n' <;> simp [countNl, List.count_cons, hc]
      omega
  | wsMore c ps cs _ _ ih =>
      have e2 : countNl cs ≤ countNl (c :: cs) := by
        by_cases hc : c = '\n' <;> simp [countNl, List.count_cons, hc]
      omega
  | nlLF ps cs _ ih =>
      have e1 : nlCount (PatElem.nl :: ps) = nlCount ps + 1 := by
        simp [nlCount, List.countP_cons]
      have e2 : countNl ('\n' :: cs) = countNl cs + 1 := by
        simp [countNl, List.count_cons]
      omega
  | nlCRLF ps cs _ ih =>
      have e1 : nlCount (PatElem.nl :: ps) = nlCount ps + 1 := by
        simp [nlCount, List.countP_cons]
      have e2 : countNl ('\r' :: '\n' :: cs) = countNl cs + 1 := by
        simp [countNl, List.count_cons]
      omega

theorem matches_refine (ps : List PatElem) (t : List Char)
    (h : Matches pyIsSpace ps t) : litNlFree ps → countNl t = nlCount ps →
    Matches wsNoNl ps t := by
  induction h with
  | nil => intro _ _; exact Matches.nil
  | lit l ps cs hcs ih =>
      intro hfree hcnt
      have hl : '\n' ∉ l := hfree l (by simp)
      have hlc : countNl l = 0 := by simp [countNl, List.count_eq_zero, hl]
      have e1 : countNl (l ++ cs) = countNl l + countNl cs := by
        simp [countNl, List.count_append]
      have e2 : nlCount (PatElem.lit l :: ps) = nlCount ps := by
        simp [nlCount, List.countP_cons]
      exact Matches.lit l ps cs
        (ih (fun l' hl' => hfree l' (List.mem_cons_of_mem _ hl')) (by omega))
  | wsOne c ps cs hc hcs ih =>
      intro hfree hcnt
      have hge : nlCount ps ≤ countNl cs := matches_countNl_ge pyIsSpace ps cs hcs
      have e2 : nlCount (PatElem.ws :: ps) = nlCount ps := by
        simp [nlCount, List.countP_cons]
      have hcne : ¬ (c = '\n') := by
        intro hcn
        have e3 : countNl (c :: cs) = countNl cs + 1 := by
          simp [countNl, List.count_cons, hcn]
        omega
      have e3 : countNl (c :: cs) = countNl cs := by
        simp [countNl, List.count_cons, hcne]
      refine Matches.wsOne c ps cs ?_
        (ih (fun l' hl' => hfree l' (List.mem_cons_of_mem _ hl')) (by omega))
      simp [wsNoNl, hc, hcne]
  | wsMore c ps cs hc hcs ih =>
      intro hfree hcnt
      have hge : nlCount (PatElem.ws :: ps) ≤ countNl cs :=
        matches_countNl_ge pyIsSpace _ cs hcs
      have hcne : ¬ (c = '\n') := by
        intro hcn
        have e3 : countNl (c :: cs) = countNl cs + 1 := by
          simp [countNl, List.count_cons, hcn]
        omega
      have e3 : countNl (c :: cs) = countNl cs := by
        simp [countNl, List.count_cons, hcne]
      refine Matches.wsMore c ps cs ?_ (ih hfree (by omega))
      simp [wsNoNl, hc, hcne]
  | nlLF ps cs hcs ih =>
      intro hfree hcnt
      have e1 : countNl ('\n' :: cs) = countNl cs + 1 := by
        simp [countNl, List.count_cons]
      have e2 : nlCount (PatElem.nl :: ps) = nlCount ps + 1 := by
        simp [nlCount, List.countP_cons]
      exact Matches.nlLF ps cs
        (ih (fun l' hl' => hfree l' (List.mem_cons_of_mem _ hl')) (by omega))
  | nlCRLF ps cs hcs ih =>
      intro hfree hcnt
      have e1 : countNl ('\r' :: '\n' :: cs) = countNl cs + 1 := by
        simp [countNl, List.count_cons]
      have e2 : nlCount (PatElem.nl :: ps) = nlCount ps + 1 := by
        simp [nlCount, List.countP_cons]
      exact Matches.nlCRLF ps cs
        (ih (fun l' hl' => hfree l' (List.mem_cons_of_mem _ hl')) (by omega))

theorem matches_no_nl (ps : List PatElem) (t : List Char)
    (h : Matches wsNoNl ps t) : nlFreePat ps → litNlFree ps → countNl t = 0 := by
  induction h with
  | nil => intro _ _; simp [countNl]
  | lit l ps cs _ ih =>
      intro hnl hfree
      have hl : '\n' ∉ l := hfree l (by simp)
      have hlc : countNl l = 0 := by simp [countNl, List.count_eq_zero, hl]
      have hcs : countNl cs = 0 :=
        ih (fun e he => hnl e (List.mem_cons_of_mem _ he))
          (fun l' hl' => hfree l' (List.mem_cons_of_mem _ hl'))
      have e1 : countNl (l ++ cs) = countNl l + countNl cs := by
        simp [countNl, List.count_append]
      omega
  | wsOne c ps cs hc _ ih =>
      intro hnl hfree
      have hcne : ¬ (c = '\n') := by
        simp [wsNoNl] at hc
        exact hc.2
      have hcs : countNl cs = 0 :=
        ih (fun e he => hnl e (List.mem_cons_of_mem _ he))
          (fun l' hl' => hfree l' (List.mem_cons_of_mem _ hl'))
      simp [countNl, List.count_cons, hcne]
      exact hcs
  | wsMore c ps cs hc _ ih =>
      intro hnl hfree
      have hcne : ¬ (c = '\n') := by
        simp [wsNoNl] at hc
        exact hc.2
      have hcs : countNl cs = 0 := ih hnl hfree
      simp [countNl, List.count_cons, hcne]
      exact hcs
  | nlLF ps cs _ _ => intro hnl _; exact absurd rfl (hnl PatElem.nl (by simp))
  | nlCRLF ps cs _ _ => intro hnl _; exact absurd rfl (hnl PatElem.nl (by simp))

theorem splitTokensGo_facts : ∀ (cs acc : List Char),
    (∀ c ∈ acc, pyIsSpace c = false) →
    ∀ t ∈ splitTokensGo acc cs, t ≠ [] ∧ ∀ c ∈ t, pyIsSpace c = false := by
  intro cs
  induction cs with
  | nil =>
      intro acc hacc t ht
      simp only [splitTokensGo] at ht
      by_cases he : acc.isEmpty
      · simp [he] at ht
      · simp [he] at ht
        subst ht
        constructor
        · simpa [List.isEmpty_iff] using he
        · intro c hc
          exact hacc c (List.mem_reverse.mp hc)
  | cons c0 rest ih =>
      intro acc hacc t ht
      simp only [splitTokensGo] at ht
      by_cases hsp : pyIsSpace c0
      · simp [hsp] at ht
        rcases ht with ⟨hne, rfl⟩ | h1
        · constructor
          · simp [hne]
          · intro c hc
            exact hacc c (List.mem_reverse.mp hc)
        · exact ih [] (by simp) t h1
      · simp [hsp] at ht
        refine ih (c0 :: acc) ?_ t ht
        intro c hc
        rcases List.mem_cons.mp hc with h1 | h1
        · simpa [h1] using hsp
        · exact hacc c h1

theorem splitTokens_facts (cs : List Char) :
    ∀ t ∈ splitTokens cs, t ≠ [] ∧ ∀ c ∈ t, pyIsSpace c = false :=
  splitTokensGo_facts cs [] (by simp)

theorem takeWhile_all (p : Char → Bool) (I : List Char)
    (h : ∀ c ∈ I, p c = true) : I.takeWhile p = I := by
  induction I with
  | nil => rfl
  | cons c I' ih =>
      rw [List.takeWhile_cons, if_pos (h c (by simp)),
        ih (fun c' hc' => h c' (List.mem_cons_of_mem _ hc'))]

theorem takeWhile_append_stop (p : Char → Bool) (I X : List Char) (c0 : Char)
    (hI : ∀ c ∈ I, p c = true) (hc0 : p c0 = false) :
    (I ++ c0 :: X).takeWhile p = I := by
  induction I with
  | nil => simp [List.takeWhile_cons, hc0]
  | cons c I' ih =>
      have step : ((c :: I') ++ c0 :: X).takeWhile p = c :: (I' ++ c0 :: X).takeWhile p := by
        rw [List.cons_append, List.takeWhile_cons, if_pos (hI c (by simp))]
      rw [step, ih (fun c' hc' => hI c' (List.mem_cons_of_mem _ hc'))]

theorem matches_tokens_last (W : Char → Bool) :
    ∀ (ts : List (List Char)) (t0 a : List Char), t0 ≠ [] →
    (∀ c ∈ t0, pyIsSpace c = false) →
    (∀ t ∈ ts, t ≠ [] ∧ ∀ c ∈ t, pyIsSpace c = false) →
    Matches W (PatElem.lit t0 :: tokElems ts) a →
    ∃ y c, a = y ++ [c] ∧ pyIsSpace c = false := by
  intro ts
  induction ts with
  | nil =>
      intro t0 a h0 hws _ hm
      obtain ⟨b, rfl, hb⟩ := matches_lit_inv W t0 _ a hm
      have hb' : b = [] := matches_nil_inv W b (by simpa [tokElems] using hb)
      subst hb'
      refine ⟨t0.dropLast, t0.getLast h0, ?_, ?_⟩
      · simp [List.dropLast_append_getLast h0]
      · exact hws _ (List.getLast_mem h0)
  | cons t2 ts' ih =>
      intro t0 a h0 hws hts hm
      obtain ⟨b, rfl, hb⟩ := matches_lit_inv W t0 _ a hm
      have hb2 : Matches W (PatElem.ws :: PatElem.lit t2 :: tokElems ts') b := by
        simpa [tokElems] using hb
      obtain ⟨u, b2, rfl, hu, hWu, hb3⟩ := matches_ws_inv W _ b hb2
      obtain ⟨y, c, hy, hc⟩ := ih t2 b2 (hts t2 (by simp)).1 (hts t2 (by simp)).2
        (fun t ht => hts t (List.mem_cons_of_mem _ ht)) hb3
      exact ⟨t0 ++ u ++ y, c, by simp [hy, List.append_assoc], hc⟩

theorem matches_line_shape (L a : List Char)
    (h : Matches wsNoNl (lineElems L) a) :
    a.takeWhile pyIsSpace = L.takeWhile pyIsSpace ∧
    (splitTokens (L.dropWhile pyIsSpace) = [] → a = L.takeWhile pyIsSpace) ∧
    (splitTokens (L.dropWhile pyIsSpace) ≠ [] →
      ∃ y c, a = y ++ [c] ∧ pyIsSpace c = false) := by
  have hI : ∀ c ∈ L.takeWhile pyIsSpace, pyIsSpace c = true :=
    fun c hc => List.mem_takeWhile_imp hc
  rcases hts : splitTokens (L.dropWhile pyIsSpace) with _ | ⟨t, ts⟩
  · have hm : Matches wsNoNl [PatElem.lit (L.takeWhile pyIsSpace)] a := by
      simpa [lineElems, hts] using h
    obtain ⟨b, rfl, hb⟩ := matches_lit_inv wsNoNl _ _ a hm
    have hb' : b = [] := matches_nil_inv wsNoNl b hb
    subst hb'
    refine ⟨?_, fun _ => by simp, fun hne => absurd rfl hne⟩
    simp [takeWhile_all pyIsSpace _ hI]
  · have hm : Matches wsNoNl
        (PatElem.lit (L.takeWhile pyIsSpace) :: PatElem.lit t :: tokElems ts) a := by
      simpa [lineElems, hts] using h
    obtain ⟨b, rfl, hb⟩ := matches_lit_inv wsNoNl _ _ a hm
    have htfacts := splitTokens_facts (L.dropWhile pyIsSpace)
    rw [hts] at htfacts
    have ht0 : t ≠ [] := (htfacts t (by simp)).1
    have htws : ∀ c ∈ t, pyIsSpace c = false := (htfacts t (by simp)).2
    obtain ⟨b2, rfl, hb2⟩ := matches_lit_inv wsNoNl t _ b hb
    constructor
    · rcases t with _ | ⟨c0, t'⟩
      · exact absurd rfl ht0
      · exact takeWhile_append_stop pyIsSpace _ (t' ++ b2) c0 hI (htws c0 (by simp))
    constructor
    · intro hcon
      exact absurd hcon (by simp)
    · intro _
      obtain ⟨y, c, hy, hc⟩ := matches_tokens_last wsNoNl ts t (t ++ b2) ht0 htws
        (fun t' ht' => htfacts t' (List.mem_cons_of_mem _ ht'))
        (Matches.lit t (tokElems ts) b2 hb2)
      exact ⟨L.takeWhile pyIsSpace ++ y, c, by simp [hy, List.append_assoc], hc⟩

theorem flexiblePattern_eq (text : List Char) :
    flexiblePattern text = joinPats ((pySplitlines text).map lineElems) := rfl

theorem joinPats_single (P : List PatElem) : joinPats [P] = P := by
  simp [joinPats, List.intersperse]

theorem joinPats_cons2 (P Q : List PatElem) (Rs : List (List PatElem)) :
    joinPats (P :: Q :: Rs) = P ++ PatElem.nl :: joinPats (Q :: Rs) := by
  simp [joinPats, List.intersperse]

theorem mem_joinPats (e : PatElem) : ∀ (Ps : List (List PatElem)),
    e ∈ joinPats Ps → (∃ P ∈ Ps, e ∈ P) ∨ e = PatElem.nl := by
  intro Ps
  induction Ps with
  | nil => intro h; simp [joinPats, List.intersperse] at h
  | cons P Ps' ih =>
      cases Ps' with
      | nil =>
          intro h
          rw [joinPats_single] at h
          exact Or.inl ⟨P, by simp, h⟩
      | cons Q Rs =>
          intro h
          rw [joinPats_cons2] at h
          rcases List.mem_append.mp h with h1 | h1
          · exact Or.inl ⟨P, by simp, h1⟩
          · rcases List.mem_cons.mp h1 with h2 | h2
            · exact Or.inr h2
            · rcases ih h2 with ⟨P', hP', he⟩ | h3
              · exact Or.inl ⟨P', List.mem_cons_of_mem _ hP', he⟩
              · exact Or.inr h3

theorem tokElems_mem (e : PatElem) : ∀ (ts : List (List Char)), e ∈ tokElems ts →
    e = PatElem.ws ∨ ∃ t ∈ ts, e = PatElem.lit t := by
  intro ts
  induction ts with
  | nil => intro h; simp [tokElems] at h
  | cons t ts' ih =>
      intro h
      have hsplit : tokElems (t :: ts') = PatElem.ws :: PatElem.lit t :: tokElems ts' := by
        simp [tokElems]
      rw [hsplit] at h
      rcases List.mem_cons.mp h with h1 | h1
      · exact Or.inl h1
      · rcases List.mem_cons.mp h1 with h2 | h2
        · exact Or.inr ⟨t, by simp, h2⟩
        · rcases ih h2 with h3 | ⟨t', ht', h3⟩
          · exact Or.inl h3
          · exact Or.inr ⟨t', List.mem_cons_of_mem _ ht', h3⟩

theorem lineElems_mem (e : PatElem) (L : List Char) (h : e ∈ lineElems L) :
    e = PatElem.ws ∨
    e = PatElem.lit (L.takeWhile pyIsSpace) ∨
    ∃ t ∈ splitTokens (L.dropWhile pyIsSpace), e = PatElem.lit t := by
  rcases hts : splitTokens (L.dropWhile pyIsSpace) with _ | ⟨t, ts⟩
  · simp [lineElems, hts] at h
    exact Or.inr (Or.inl h)
  · simp only [lineElems, hts] at h
    rcases List.mem_cons.mp h with h1 | h1
    · exact Or.inr (Or.inl h1)
    · rcases List.mem_cons.mp h1 with h2 | h2
      · exact Or.inr (Or.inr ⟨t, by simp, h2⟩)
      · rcases tokElems_mem e ts h2 with h3 | ⟨t', ht', h3⟩
        · exact Or.inl h3
        · exact Or.inr (Or.inr ⟨t', List.mem_cons_of_mem _ ht', h3⟩)

theorem lineElems_no_nl (L : List Char) : nlFreePat (lineElems L) := by
  intro e he
  rcases lineElems_mem e L he with h | h | ⟨t, _, h⟩ <;> simp [h]

theorem lineElems_litNlFree (L : List Char)
    (hL : ∀ c ∈ L, isLineBreak c = false) : litNlFree (lineElems L) := by
  intro l hl hmem
  rcases lineElems_mem (PatElem.lit l) L hl with h | h | ⟨t, ht, h⟩
  · exact absurd h (by simp)
  · have hlt : l = L.takeWhile pyIsSpace := by
      injection h
    have : '\n' ∈ L := List.takeWhile_subset pyIsSpace (hlt ▸ hmem)
    have := hL '\n' this
    simp [isLineBreak] at this
  · have hlt : l = t := by injection h
    have := (splitTokens_facts (L.dropWhile pyIsSpace) t ht).2 '\n' (hlt ▸ hmem)
    simp [pyIsSpace] at this

theorem nlCount_eq_zero (ps : List PatElem) (h : nlFreePat ps) : nlCount ps = 0 := by
  simp [nlCount, List.countP_eq_zero]
  intro e he
  exact h e he

theorem joinPats_nlCount : ∀ (Ps : List (List PatElem)), Ps ≠ [] →
    (∀ P ∈ Ps, nlFreePat P) → nlCount (joinPats Ps) + 1 = Ps.length := by
  intro Ps
  induction Ps with
  | nil => intro h; exact absurd rfl h
  | cons P Ps' ih =>
      intro _ hfree
      cases Ps' with
      | nil => simp [joinPats_single, nlCount_eq_zero P (hfree P (by simp))]
      | cons Q Rs =>
          rw [joinPats_cons2]
          have e1 : nlCount (P ++ PatElem.nl :: joinPats (Q :: Rs)) =
              nlCount P + (nlCount (joinPats (Q :: Rs)) + 1) := by
            simp [nlCount, List.countP_append, List.countP_cons]
          have e2 := ih (by simp) (fun P' hP' => hfree P' (List.mem_cons_of_mem _ hP'))
          have e3 : nlCount P = 0 := nlCount_eq_zero P (hfree P (by simp))
          simp at e2
          simp [e1, e3]
          omega

theorem joinPats_litNlFree (Ps : List (List PatElem))
    (h : ∀ P ∈ Ps, litNlFree P) : litNlFree (joinPats Ps) := by
  intro l hl hmem
  rcases mem_joinPats (PatElem.lit l) Ps hl with ⟨P, hP, he⟩ | hcon
  · exact h P hP l he hmem
  · exact absurd hcon (by simp)

theorem breakFree_countNl (x : List Char)
    (h : ∀ c ∈ x, isLineBreak c = false) : countNl x = 0 := by
  simp [countNl, List.count_eq_zero]
  intro hmem
  have := h '\n' hmem
  simp [isLineBreak] at this

theorem joinTxt_countNl : ∀ (xs js : List (List Char)),
    (∀ x ∈ xs, countNl x = 0) → (∀ j ∈ js, j = ['\n'] ∨ j = ['\r', '\n']) →
    js.length + 1 = xs.length → countNl (joinTxt xs js) = js.length := by
  intro xs
  induction xs with
  | nil => intro js _ _ hlen; simp at hlen
  | cons x xs' ih =>
      intro js hx hj hlen
      cases xs' with
      | nil =>
          have : js = [] := by
            cases js with
            | nil => rfl
            | cons j js' => simp at hlen
          subst this
          simpa [joinTxt] using hx x (by simp)
      | cons x2 xs'' =>
          cases js with
          | nil => simp at hlen
          | cons j js' =>
              have hjl : countNl j = 1 := by
                rcases hj j (by simp) with h | h <;> simp [h, countNl, List.count_cons]
              have e1 : countNl (joinTxt (x :: x2 :: xs'') (j :: js')) =
                  countNl x + countNl j + countNl (joinTxt (x2 :: xs'') js') := by
                simp [joinTxt, countNl, List.count_append]
                omega
              have e2 := ih js' (fun y hy => hx y (List.mem_cons_of_mem _ hy))
                (fun j' hj' => hj j' (List.mem_cons_of_mem _ hj')) (by simpa using hlen)
              have e3 : countNl x = 0 := hx x (by simp)
              simp [e1, e2, e3, hjl]
              omega

theorem nl_split : ∀ (x a X A : List Char), countNl x = 0 → countNl a = 0 →
    x ++ '\n' :: X = a ++ '\n' :: A → x = a ∧ X = A := by
  intro x
  induction x with
  | nil =>
      intro a X A _ ha h
      cases a with
      | nil => simpa using h
      | cons c a' =>
          simp at h
          obtain ⟨rfl, _⟩ := h
          simp [countNl, List.count_cons] at ha
  | cons c x' ih =>
      intro a X A hx ha h
      cases a with
      | nil =>
          simp at h
          obtain ⟨rfl, _⟩ := h
          simp [countNl, List.count_cons] at hx
      | cons c' a' =>
          simp at h
          obtain ⟨rfl, h2⟩ := h
          have hx' : countNl x' = 0 := by
            simp [countNl, List.count_cons] at hx ⊢
            omega
          have ha' : countNl a' = 0 := by
            simp [countNl, List.count_cons] at ha ⊢
            omega
          obtain ⟨rfl, rfl⟩ := ih a' X A hx' ha' h2
          exact ⟨rfl, rfl⟩


theorem pySplitlinesF_breakFree : ∀ (fuel : Nat) (cs acc : List Char),
    (∀ c ∈ acc, isLineBreak c = false) →
    ∀ L ∈ pySplitlinesF fuel acc cs, ∀ c ∈ L, isLineBreak c = false := by
  intro fuel
  induction fuel with
  | zero =>
      intro cs acc hacc L hL c hc
      simp [pySplitlinesF] at hL
      subst hL
      exact hacc c (List.mem_reverse.mp hc)
  | succ fuel ih =>
      intro cs acc hacc L hL
      cases cs with
      | nil =>
          simp [pySplitlinesF] at hL
          subst hL
          intro c hc
          exact hacc c (List.mem_reverse.mp hc)
      | cons c0 rest =>
          by_cases h1 : c0 = '\r' ∧ rest.head? = some '\n'
          · simp only [pySplitlinesF, if_pos h1] at hL
            rcases List.mem_cons.mp hL with h2 | h2
            · subst h2
              intro c hc
              exact hacc c (List.mem_reverse.mp hc)
            · by_cases he : rest.tail.isEmpty
              · simp [he] at h2
              · simp [he] at h2
                exact ih rest.tail [] (by simp) L h2
          · by_cases h2 : isLineBreak c0
            · simp only [pySplitlinesF, if_neg h1, if_pos h2] at hL
              rcases List.mem_cons.mp hL with h3 | h3
              · subst h3
                intro c hc
                exact hacc c (List.mem_reverse.mp hc)
              · by_cases he : rest.isEmpty
                · simp [he] at h3
                · simp [he] at h3
                  exact ih rest [] (by simp) L h3
            · simp only [pySplitlinesF, if_neg h1, if_neg h2] at hL
              refine ih rest (c0 :: acc) ?_ L hL
              intro c hc
              rcases List.mem_cons.mp hc with h3 | h3
              · subst h3
                simpa using h2
              · exact hacc c h3

theorem pySplitlines_breakFree (text : List Char) :
    ∀ L ∈ pySplitlines text, ∀ c ∈ L, isLineBreak c = false := by
  intro L hL
  by_cases he : text.isEmpty
  · simp [pySplitlines, he] at hL
  · simp only [pySplitlines, if_neg he] at hL
    exact pySplitlinesF_breakFree (text.length + 1) text [] (by simp) L hL

theorem matches_align : ∀ (Ls xs js : List (List Char)),
    (∀ L ∈ Ls, ∀ c ∈ L, isLineBreak c = false) →
    (∀ x ∈ xs, ∀ c ∈ x, isLineBreak c = false) →
    (∀ j ∈ js, j = ['\n'] ∨ j = ['\r', '\n']) →
    xs.length = Ls.length → js.length + 1 = Ls.length →
    Matches wsNoNl (joinPats (Ls.map lineElems)) (joinTxt xs js) →
    ∀ i L x, Ls.get? i = some L → xs.get? i = some x →
    Matches wsNoNl (lineElems L) x := by
  intro Ls
  induction Ls with
  | nil => intro xs js _ _ _ _ hjs; simp at hjs
  | cons L1 Ls' ihL =>
      intro xs js hLs hxs hjs hxlen hjlen hm i L x hLi hxi
      cases Ls' with
      | nil =>
          have hxs1 : ∃ x1, xs = [x1] := by
            cases xs with
            | nil => simp at hxlen
            | cons a b =>
                cases b with
                | nil => exact ⟨a, rfl⟩
                | cons _ _ => simp at hxlen
          obtain ⟨x1, rfl⟩ := hxs1
          have hm1 : Matches wsNoNl (lineElems L1) x1 := by
            have e1 : joinPats ([L1].map lineElems) = lineElems L1 := by
              simp [joinPats_single]
            have e2 : joinTxt [x1] js = x1 := by simp [joinTxt]
            rw [e1, e2] at hm
            exact hm
          cases i with
          | zero =>
              simp at hLi hxi
              subst hLi
              subst hxi
              exact hm1
          | succ n => simp at hLi
      | cons L2 rest =>
          have hxs2 : ∃ x1 x2 xs'', xs = x1 :: x2 :: xs'' := by
            cases xs with
            | nil => simp at hxlen
            | cons a b =>
                cases b with
                | nil => simp at hxlen
                | cons a2 b2 => exact ⟨a, a2, b2, rfl⟩
          obtain ⟨x1, x2, xs'', rfl⟩ := hxs2
          have hjs2 : ∃ j1 js', js = j1 :: js' := by
            cases js with
            | nil => simp at hjlen
            | cons a b => exact ⟨a, b, rfl⟩
          obtain ⟨j1, js', rfl⟩ := hjs2
          have epat : joinPats ((L1 :: L2 :: rest).map lineElems) =
              lineElems L1 ++ PatElem.nl :: joinPats ((L2 :: rest).map lineElems) := by
            simp only [List.map_cons]
            exact joinPats_cons2 _ _ _
          have etxt : joinTxt (x1 :: x2 :: xs'') (j1 :: js') =
              x1 ++ j1 ++ joinTxt (x2 :: xs'') js' := by simp [joinTxt]
          rw [epat, etxt] at hm
          obtain ⟨a, b, hab, ha, hb⟩ :=
            matches_append_inv wsNoNl _ _ hm (lineElems L1)
              (PatElem.nl :: joinPats ((L2 :: rest).map lineElems)) rfl
          obtain ⟨j2, b2, hj2, hbb, hb2⟩ := matches_nl_inv wsNoNl _ b hb
          have hL1free : ∀ c ∈ L1, isLineBreak c = false := hLs L1 (by simp)
          have hx1free : ∀ c ∈ x1, isLineBreak c = false := hxs x1 (by simp)
          have hcntA : countNl a = 0 :=
            matches_no_nl _ a ha (lineElems_no_nl L1) (lineElems_litNlFree L1 hL1free)
          have hcntX : countNl x1 = 0 := breakFree_countNl x1 hx1free
          -- align the first line: a = x1, j2 = j1, b2 = joinTxt (x2 :: xs'') js'
          have key : a = x1 ∧ b2 = joinTxt (x2 :: xs'') js' := by
            subst hbb
            rcases hjs j1 (by simp) with hj1 | hj1 <;> rcases hj2 with hj2 | hj2 <;>
              subst hj1 <;> subst hj2
            · -- j1 = "\n", j2 = "\n"
              have heq : x1 ++ '\n' :: joinTxt (x2 :: xs'') js' = a ++ '\n' :: b2 := by
                simpa using hab
              obtain ⟨h1, h2⟩ := nl_split x1 a _ _ hcntX hcntA heq
              exact ⟨h1.symm, h2.symm⟩
            · -- j1 = "\n", j2 = "\r\n" : impossible ("\r" would sit in x1)
              have heq : x1 ++ '\n' :: joinTxt (x2 :: xs'') js' = (a ++ ['\r']) ++ '\n' :: b2 := by
                simpa [List.append_assoc] using hab
              have hcntA' : countNl (a ++ ['\r']) = 0 := by
                simp [countNl, List.count_append] at hcntA ⊢
                exact hcntA
              obtain ⟨h1, _⟩ := nl_split x1 (a ++ ['\r']) _ _ hcntX hcntA' heq
              have : '\r' ∈ x1 := by
                rw [h1]
                simp
              have := hx1free '\r' this
              simp [isLineBreak] at this
            · -- j1 = "\r\n", j2 = "\n" : impossible (a would end in "\r")
              have heq : (x1 ++ ['\r']) ++ '\n' :: joinTxt (x2 :: xs'') js' = a ++ '\n' :: b2 := by
                simpa [List.append_assoc] using hab
              have hcntX' : countNl (x1 ++ ['\r']) = 0 := by
                simp [countNl, List.count_append] at hcntX ⊢
                exact hcntX
              obtain ⟨h1, _⟩ := nl_split (x1 ++ ['\r']) a _ _ hcntX' hcntA heq
              obtain ⟨htw, hnotok, htok⟩ := matches_line_shape L1 a ha
              by_cases htoks : splitTokens (L1.dropWhile pyIsSpace) = []
              · have haI : a = L1.takeWhile pyIsSpace := hnotok htoks
                have : '\r' ∈ L1 := by
                  refine List.takeWhile_subset pyIsSpace ?_
                  rw [← haI, ← h1]
                  simp
                have := hL1free '\r' this
                simp [isLineBreak] at this
              · obtain ⟨y, c, hy, hc⟩ := htok htoks
                have hlast1 : a.getLast? = some c := by
                  rw [hy]
                  exact List.getLast?_concat y
                have hlast2 : a.getLast? = some '\r' := by
                  rw [← h1]
                  exact List.getLast?_concat x1
                have : c = '\r' := by
                  rw [hlast1] at hlast2
                  injection hlast2
                rw [this] at hc
                simp [pyIsSpace] at hc
            · -- j1 = "\r\n", j2 = "\r\n"
              have heq : (x1 ++ ['\r']) ++ '\n' :: joinTxt (x2 :: xs'') js' =
                  (a ++ ['\r']) ++ '\n' :: b2 := by
                simpa [List.append_assoc] using hab
              have hcntX' : countNl (x1 ++ ['\r']) = 0 := by
                simp [countNl, List.count_append] at hcntX ⊢
                exact hcntX
              have hcntA' : countNl (a ++ ['\r']) = 0 := by
                simp [countNl, List.count_append] at hcntA ⊢
                exact hcntA
              obtain ⟨h1, h2⟩ := nl_split (x1 ++ ['\r']) (a ++ ['\r']) _ _ hcntX' hcntA' heq
              obtain ⟨h3, _⟩ := List.append_inj' h1 (by simp)
              exact ⟨h3.symm, h2.symm⟩
          obtain ⟨rfl, hb2eq⟩ := key
          cases i with
          | zero =>
              simp at hLi hxi
              subst hLi
              subst hxi
              exact ha
          | succ n =>
              refine ihL (x2 :: xs'') js'
                (fun L' hL' => hLs L' (List.mem_cons_of_mem _ hL'))
                (fun x' hx' => hxs x' (List.mem_cons_of_mem _ hx'))
                (fun j' hj' => hjs j' (List.mem_cons_of_mem _ hj'))
                (by simpa using hxlen) (by simpa using hjlen)
                (hb2eq ▸ hb2) n L x ?_ ?_
              · simpa using hLi
              · simpa using hxi

/-- C1: For every snippet whose lines have leading indentation `I_1..I_n`, the
matcher produced by compiling the snippet never matches a candidate text whose
corresponding line's leading indentation differs from `I_i`, even by one
space; in particular a candidate whose first line carries extra leading
whitespace beyond `I_1` is not matched.  The candidate text is presented as
its lines `xs` (free of line-break characters) joined by per-position newline
styles `js` (`"\n"` or `"\r\n"`), so "corresponding line" is meaningful; the
pattern matching the candidate text means `Matches` of the whole candidate.
If the candidate's line `i` has leading whitespace different from that of the
snippet's line `i`, the compiled pattern does not match the candidate. -/
theorem indentation_exactness (snippet : List Char) (xs js : List (List Char))
    (i : Nat) (L x : List Char)
    (hxs : ∀ y ∈ xs, ∀ c ∈ y, isLineBreak c = false)
    (hjs : ∀ j ∈ js, j = ['\n'] ∨ j = ['\r', '\n'])
    (hxlen : xs.length = (pySplitlines snippet).length)
    (hjlen : js.length + 1 = xs.length)
    (hLi : (pySplitlines snippet).get? i = some L)
    (hxi : xs.get? i = some x)
    (hne : x.takeWhile pyIsSpace ≠ L.takeWhile pyIsSpace) :
    ¬ Matches pyIsSpace (flexiblePattern snippet) (joinTxt xs js) := by
  intro hm
  rw [flexiblePattern_eq] at hm
  have hSLfree : ∀ L' ∈ pySplitlines snippet, ∀ c ∈ L', isLineBreak c = false :=
    pySplitlines_breakFree snippet
  have hlit : litNlFree (joinPats ((pySplitlines snippet).map lineElems)) := by
    refine joinPats_litNlFree _ ?_
    intro P hP
    obtain ⟨L', hL', rfl⟩ := List.mem_map.mp hP
    exact lineElems_litNlFree L' (hSLfree L' hL')
  have hSLne : pySplitlines snippet ≠ [] := by
    intro hcon
    rw [hcon] at hLi
    simp at hLi
  have hnlc : nlCount (joinPats ((pySplitlines snippet).map lineElems)) + 1 =
      (pySplitlines snippet).length := by
    have := joinPats_nlCount ((pySplitlines snippet).map lineElems)
      (by simpa using hSLne)
      (by
        intro P hP
        obtain ⟨L', _, rfl⟩ := List.mem_map.mp hP
        exact lineElems_no_nl L')
    simpa using this
  have hcntT : countNl (joinTxt xs js) = js.length :=
    joinTxt_countNl xs js (fun y hy => breakFree_countNl y (hxs y hy)) hjs
      (by omega)
  have hrefined : Matches wsNoNl (joinPats ((pySplitlines snippet).map lineElems))
      (joinTxt xs js) := by
    refine matches_refine _ _ hm hlit ?_
    omega
  have hline := matches_align (pySplitlines snippet) xs js hSLfree hxs hjs
    hxlen (by omega) hrefined i L x hLi hxi
  exact hne (matches_line_shape L x hline).1

/-- Witness for C1: the snippet `"# marker"` (indentation of its single line
is empty) does not match the candidate `" # marker"`, whose first line
carries one extra leading space. -/
theorem indentation_exactness_witness :
    ((pySplitlines "# marker".toList).get? 0 = some "# marker".toList ∧
      (" # marker".toList).takeWhile pyIsSpace ≠
        ("# marker".toList).takeWhile pyIsSpace) ∧
    ¬ Matches pyIsSpace (flexiblePattern "# marker".toList) " # marker".toList := by
  refine ⟨⟨by decide, by decide⟩, ?_⟩
  have h := indentation_exactness "# marker".toList [" # marker".toList] [] 0
    "# marker".toList " # marker".toList (by decide) (by decide) (by decide)
    (by decide) (by decide) (by decide) (by decide)
  simpa [joinTxt] using h

theorem take_append_split (l cs : List Char) (m : Nat)
    (h : l.isPrefixOf cs) : cs.take (m + l.length) = l ++ (cs.drop l.length).take m := by
  obtain ⟨rest, hrest⟩ := List.isPrefixOf_iff_prefix.mp h
  subst hrest
  simp [List.take_append_eq_append_take, List.drop_append_eq_append_drop]

theorem matchLenF_sound : ∀ (fuel : Nat) (ps : List PatElem) (cs : List Char) (n : Nat),
    matchLenF fuel ps cs = some n → Matches pyIsSpace ps (cs.take n) := by
  intro fuel
  induction fuel with
  | zero => intro ps cs n h; simp [matchLenF] at h
  | succ fuel ih =>
      intro ps cs n h
      cases ps with
      | nil =>
          simp [matchLenF] at h
          subst h
          simpa using Matches.nil
      | cons e ps' =>
          cases e with
          | lit l =>
              simp only [matchLenF] at h
              by_cases hp : l.isPrefixOf cs
              · rw [if_pos hp] at h
                rcases Option.map_eq_some'.mp h with ⟨m, hm, rfl⟩
                rw [take_append_split l cs m hp]
                exact Matches.lit l ps' _ (ih ps' (cs.drop l.length) m hm)
              · rw [if_neg hp] at h
                simp at h
          | ws =>
              cases cs with
              | nil => simp [matchLenF] at h
              | cons c rest =>
                  simp only [matchLenF] at h
                  by_cases hsp : pyIsSpace c
                  · rw [if_pos hsp] at h
                    rcases hinner : matchLenF fuel (PatElem.ws :: ps') rest with _ | n'
                    · rw [hinner] at h
                      rcases Option.map_eq_some'.mp h with ⟨m, hm, rfl⟩
                      have := ih ps' rest m hm
                      simpa [List.take_cons] using Matches.wsOne c ps' (rest.take m) hsp this
                    · rw [hinner] at h
                      have hn : n = n' + 1 := by
                        injection h with h2
                        exact h2.symm
                      subst hn
                      have := ih (PatElem.ws :: ps') rest n' hinner
                      simpa [List.take_cons] using
                        Matches.wsMore c ps' (rest.take n') hsp this
                  · rw [if_neg hsp] at h
                    simp at h
          | nl =>
              cases cs with
              | nil => simp [matchLenF] at h
              | cons c1 cs1 =>
                  simp only [matchLenF] at h
                  split at h
                  · rename_i rest heq
                    have e12 : c1 = '\r' ∧ cs1 = '\n' :: rest := by
                      injection heq with e1 e2
                      exact ⟨e1, e2⟩
                    rcases Option.map_eq_some'.mp h with ⟨m, hm, rfl⟩
                    rw [e12.1, e12.2]
                    have := ih ps' rest m hm
                    simpa [List.take_cons] using Matches.nlCRLF ps' (rest.take m) this
                  · rename_i rest heq
                    have e12 : c1 = '\n' ∧ cs1 = rest := by
                      injection heq with e1 e2
                      exact ⟨e1, e2⟩
                    rcases Option.map_eq_some'.mp h with ⟨m, hm, rfl⟩
                    rw [e12.1, e12.2]
                    have := ih ps' rest m hm
                    simpa [List.take_cons] using Matches.nlLF ps' (rest.take m) this
                  · simp at h

theorem matchLen_sound (ps : List PatElem) (cs : List Char) (n : Nat)
    (h : matchLen ps cs = some n) : Matches pyIsSpace ps (cs.take n) :=
  matchLenF_sound _ ps cs n h

/-- C7: For every snippet that the compiled matcher matches against some
source text, replacing any single run of inter-token whitespace in that
source text with a different non-empty whitespace run (spaces and/or tabs,
one or more characters) yields a text the compiled matcher still matches.
An inter-token whitespace run of the matched source text is the part
consumed by one `\s+` element of the compiled pattern (the spec's "escaped
tokens joined with one-or-more whitespace characters"): writing the compiled
pattern as `X ++ \s+ :: Y`, the matched text decomposes as `a ++ u ++ b`
with `u` the non-empty whitespace run at that slot, and for every non-empty
whitespace run `v` (in particular any run of spaces and tabs) the text
`a ++ v ++ b` still matches. -/
theorem internal_ws_tolerance (snippet : List Char) (X Y : List PatElem)
    (T : List Char)
    (hpat : flexiblePattern snippet = X ++ PatElem.ws :: Y)
    (hm : Matches pyIsSpace (flexiblePattern snippet) T) :
    ∃ a u b, T = a ++ u ++ b ∧ Matches pyIsSpace X a ∧ u ≠ [] ∧
      (∀ c ∈ u, pyIsSpace c = true) ∧ Matches pyIsSpace Y b ∧
      ∀ v, v ≠ [] → (∀ c ∈ v, pyIsSpace c = true) →
        Matches pyIsSpace (flexiblePattern snippet) (a ++ v ++ b) := by
  rw [hpat] at hm
  obtain ⟨a, b', hab, ha, hb'⟩ :=
    matches_append_inv pyIsSpace _ _ hm X (PatElem.ws :: Y) rfl
  obtain ⟨u, b, rfl, hu, hWu, hb⟩ := matches_ws_inv pyIsSpace Y b' hb'
  refine ⟨a, u, b, by simp [hab, List.append_assoc], ha, hu, hWu, hb, ?_⟩
  intro v hv hWv
  rw [hpat]
  have hwsb : Matches pyIsSpace (PatElem.ws :: Y) (v ++ b) :=
    matches_ws_chain pyIsSpace Y v b hv hWv hb
  have := matches_append pyIsSpace X (PatElem.ws :: Y) a (v ++ b) ha hwsb
  simpa [List.append_assoc] using this

/-- Witness for C7: the snippet `"a b"` matches the text `"a b"`; its single
inter-token run `" "` can be replaced by `"  "` (or any other non-empty
whitespace run), and the text still matches. -/
theorem internal_ws_tolerance_witness :
    (flexiblePattern "a b".toList =
      [PatElem.lit [], PatElem.lit ['a']] ++ PatElem.ws :: [PatElem.lit ['b']] ∧
      Matches pyIsSpace (flexiblePattern "a b".toList) "a b".toList) ∧
    ∃ a u b, "a b".toList = a ++ u ++ b ∧
      Matches pyIsSpace [PatElem.lit [], PatElem.lit ['a']] a ∧ u ≠ [] ∧
      (∀ c ∈ u, pyIsSpace c = true) ∧ Matches pyIsSpace [PatElem.lit ['b']] b ∧
      ∀ v, v ≠ [] → (∀ c ∈ v, pyIsSpace c = true) →
        Matches pyIsSpace (flexiblePattern "a b".toList) (a ++ v ++ b) := by
  have hm : Matches pyIsSpace (flexiblePattern "a b".toList) "a b".toList := by
    have h := matchLen_sound (flexiblePattern "a b".toList) "a b".toList 3 (by decide)
    have he : ("a b".toList).take 3 = "a b".toList := by decide
    rw [he] at h
    exact h
  exact ⟨⟨by decide, hm⟩,
    internal_ws_tolerance "a b".toList [PatElem.lit [], PatElem.lit ['a']]
      [PatElem.lit ['b']] "a b".toList (by decide) hm⟩

theorem searchFirstF_spec : ∀ (fuel : Nat) (ps : List PatElem) (cs : List Char)
    (pos p l : Nat), searchFirstF fuel ps cs pos = some (p, l) →
    pos ≤ p ∧ matchLen ps (cs.drop p) = some l ∧
      ∀ q, pos ≤ q → q < p → matchLen ps (cs.drop q) = none := by
  intro fuel
  induction fuel with
  | zero => intro ps cs pos p l h; simp [searchFirstF] at h
  | succ fuel ih =>
      intro ps cs pos p l h
      simp only [searchFirstF] at h
      rcases hml : matchLen ps (cs.drop pos) with _ | l'
      · rw [hml] at h
        by_cases hlt : pos < cs.length
        · rw [if_pos hlt] at h
          obtain ⟨h1, h2, h3⟩ := ih ps cs (pos + 1) p l h
          refine ⟨by omega, h2, ?_⟩
          intro q hq1 hq2
          by_cases hq : q = pos
          · subst hq
            exact hml
          · exact h3 q (by omega) hq2
        · rw [if_neg hlt] at h
          simp at h
      · rw [hml] at h
        injection h with h2
        injection h2 with e1 e2
        subst e1
        subst e2
        exact ⟨Nat.le_refl _, hml, fun q hq1 hq2 => absurd hq1 (by omega)⟩

theorem searchFirstF_none : ∀ (fuel : Nat) (ps : List PatElem) (cs : List Char)
    (pos : Nat), (∀ q, matchLen ps (cs.drop q) = none) →
    searchFirstF fuel ps cs pos = none := by
  intro fuel
  induction fuel with
  | zero => intro ps cs pos _; simp [searchFirstF]
  | succ fuel ih =>
      intro ps cs pos hall
      simp only [searchFirstF]
      rw [hall pos]
      by_cases hlt : pos < cs.length
      · rw [if_pos hlt]
        exact ih ps cs (pos + 1) hall
      · rw [if_neg hlt]

theorem scanMatchesF_none : ∀ (fuel : Nat) (ps : List PatElem) (cs : List Char)
    (pos : Nat), (∀ q, matchLen ps (cs.drop q) = none) →
    scanMatchesF fuel ps cs pos = [] := by
  intro fuel
  induction fuel with
  | zero => intro ps cs pos _; simp [scanMatchesF]
  | succ fuel ih =>
      intro ps cs pos hall
      simp only [scanMatchesF]
      rw [hall pos]
      by_cases hlt : pos < cs.length
      · rw [if_pos hlt]
        exact ih ps cs (pos + 1) hall
      · rw [if_neg hlt]

/-- Extend a "no match at any position up to the length" hypothesis to all
positions (beyond the length the remaining text is empty, the same as at
the length). -/
theorem noMatch_extend (ps : List PatElem) (cs : List Char)
    (h : ∀ q, q ≤ cs.length → matchLen ps (cs.drop q) = none) :
    ∀ q, matchLen ps (cs.drop q) = none := by
  intro q
  by_cases hq : q ≤ cs.length
  · exact h q hq
  · have h1 : cs.drop q = [] := List.drop_eq_nil_of_le (by omega)
    have h2 : cs.drop cs.length = [] := List.drop_eq_nil_of_le (by omega)
    rw [h1, ← h2]
    exact h cs.length (by omega)

theorem parseTemplateF_no_backslash : ∀ (fuel : Nat) (cs : List Char),
    cs.length < fuel → (∀ c ∈ cs, ¬(c = '\\')) →
    parseTemplateF fuel cs = Except.ok (cs.map TItem.ch) := by
  intro fuel
  induction fuel with
  | zero => intro cs h _; omega
  | succ fuel ih =>
      intro cs hlen hnb
      cases cs with
      | nil => simp [parseTemplateF]
      | cons c rest =>
          have hc : ¬(c = '\\') := hnb c (by simp)
          simp only [parseTemplateF, if_neg hc]
          rw [ih rest (by simpa using hlen) (fun c' hc' => hnb c' (List.mem_cons_of_mem _ hc'))]
          rfl

theorem parseTemplate_no_backslash (cs : List Char) (hnb : ∀ c ∈ cs, ¬(c = '\\')) :
    parseTemplate cs = Except.ok (cs.map TItem.ch) :=
  parseTemplateF_no_backslash (cs.length + 1) cs (by omega) hnb

theorem expandTemplate_map_ch (cs m : List Char) :
    expandTemplate (cs.map TItem.ch) m = cs := by
  induction cs with
  | nil => simp [expandTemplate]
  | cons c rest ih => simpa [expandTemplate] using ih

theorem renderSubst_congr (f g : List Char → List Char) (content : List Char)
    (h : ∀ m, f m = g m) : ∀ (ms : List (Nat × Nat)) (pos : Nat),
    renderSubst f content ms pos = renderSubst g content ms pos := by
  intro ms
  induction ms with
  | nil => intro pos; rfl
  | cons m ms' ih =>
      intro pos
      obtain ⟨p, l⟩ := m
      simp [renderSubst, h, ih]

/-- C10: an Update whose `replace` is empty and an Insert whose `write` is
empty are silent no-ops: the guard of the respective branch fails, no other
branch applies, and the content is returned unchanged (the matches of
`find` are not deleted). -/
theorem empty_field_noop (fn find rep w d content : List Char) :
    applyInstruction ⟨"update".toList, fn, find, [], w, d⟩ content = Except.ok content ∧
    applyInstruction ⟨"insert".toList, fn, find, rep, [], d⟩ content = Except.ok content := by
  have h1 : ¬("update".toList = "insert".toList) := by decide
  have h2 : ¬("update".toList = "delete".toList) := by decide
  have h3 : ¬("insert".toList = "update".toList) := by decide
  have h4 : ¬("insert".toList = "delete".toList) := by decide
  constructor
  · simp [applyInstruction, h1, h2]
  · simp [applyInstruction, h3, h4]

/-- C5: when the compiled pattern of a non-empty `find` has a match in the
content, an Insert instruction with non-empty `write` splices a single
newline followed by `write` immediately after the end of the first
(leftmost) match only: the returned content is
`content[0..p+l) ++ "\n" ++ write ++ content[p+l..)`, where `(p, l)` is the
match returned by `pattern.search` — and no position before `p` carries a
match. -/
theorem insert_after_first_match (fn rep d find w content : List Char) (p l : Nat)
    (hfind : find ≠ []) (hw : w ≠ [])
    (hs : searchFirst (flexiblePattern find) content = some (p, l)) :
    applyInstruction ⟨"insert".toList, fn, find, rep, w, d⟩ content =
      Except.ok (content.take (p + l) ++ '\n' :: (w ++ content.drop (p + l))) ∧
    matchLen (flexiblePattern find) (content.drop p) = some l ∧
    ∀ q, q < p → matchLen (flexiblePattern find) (content.drop q) = none := by
  have h1 : ¬("insert".toList = "update".toList ∧ find ≠ [] ∧ rep ≠ []) :=
    fun h => absurd h.1 (by decide)
  obtain ⟨_, hml, hleft⟩ := searchFirstF_spec (content.length + 1)
    (flexiblePattern find) content 0 p l hs
  refine ⟨?_, hml, fun q hq => hleft q (by omega) hq⟩
  simp only [applyInstruction]
  rw [if_neg h1]
  rw [if_pos (⟨trivial, hfind, hw⟩ : True ∧ find ≠ [] ∧ w ≠ []), hs]

/-- Witness for C5: the spec's end-to-end insert example. -/
theorem insert_after_first_match_witness :
    (searchFirst (flexiblePattern "# marker".toList) "# marker\nrest\n".toList =
      some (0, 8)) ∧
    applyInstruction
      ⟨"insert".toList, "f".toList, "# marker".toList, [], "added()".toList, []⟩
      "# marker\nrest\n".toList = Except.ok "# marker\nadded()\nrest\n".toList := by
  have h := insert_after_first_match "f".toList [] [] "# marker".toList
    "added()".toList "# marker\nrest\n".toList 0 8 (by decide) (by decide) (by decide)
  exact ⟨by decide, h.1.trans (by decide)⟩

/-- C6 (amended): applying any instruction whose compiled `find` pattern
matches nowhere in the content — and whose `replace`, in the Update case,
contains no backslash, so that the replacement template parses — returns
the content byte-for-byte unchanged.  (The claim's original phrasing, "whose
`find` text does not occur anywhere in the content", is refuted by
`no_match_counterexample`: the whitespace-tolerant pattern can match even
though the literal `find` text occurs nowhere.) -/
theorem no_flexible_match_noop (ins : CodeInstruction) (content : List Char)
    (htmpl : ins.type = "update".toList ∧ ins.find ≠ [] ∧ ins.replace ≠ [] →
      ∀ c ∈ ins.replace, ¬(c = '\\'))
    (hnm : ∀ q, q ≤ content.length →
      matchLen (flexiblePattern ins.find) (content.drop q) = none) :
    applyInstruction ins content = Except.ok content := by
  have hall := noMatch_extend (flexiblePattern ins.find) content hnm
  have hscan : scanMatches (flexiblePattern ins.find) content = [] :=
    scanMatchesF_none _ _ _ _ hall
  have hsearch : searchFirst (flexiblePattern ins.find) content = none :=
    searchFirstF_none _ _ _ _ hall
  simp only [applyInstruction]
  by_cases h1 : ins.type = "update".toList ∧ ins.find ≠ [] ∧ ins.replace ≠ []
  · rw [if_pos h1, parseTemplate_no_backslash ins.replace (htmpl h1), hscan]
    rfl
  · rw [if_neg h1]
    by_cases h2 : ins.type = "insert".toList ∧ ins.find ≠ [] ∧ ins.write ≠ []
    · rw [if_pos h2, hsearch]
    · rw [if_neg h2]
      by_cases h3 : ins.type = "delete".toList ∧ ins.find ≠ []
      · rw [if_pos h3, hscan]
        rfl
      · rw [if_neg h3]

/-- Witness for C6 (amended): deleting `"x"` from `"y"` (no match anywhere)
returns `"y"` unchanged. -/
theorem no_flexible_match_noop_witness :
    applyInstruction ⟨"delete".toList, "f".toList, "x".toList, [], [], []⟩
      "y".toList = Except.ok "y".toList := by
  refine no_flexible_match_noop
    ⟨"delete".toList, "f".toList, "x".toList, [], [], []⟩ "y".toList ?_ ?_
  · intro h
    exact absurd h.1 (by decide)
  · decide

/-- Counterexample for C6 as stated: for the Update instruction with
`find = "a b"`, `replace = "c"` and content `"a  b"`, the literal `find`
text occurs nowhere in the content, yet applying the instruction rewrites
the content to `"c"` (the flexible pattern `a\s+b` matches `"a  b"`), so
the content is not returned unchanged. -/
theorem no_match_counterexample :
    occCount "a b".toList "a  b".toList = 0 ∧
    applyInstruction ⟨"update".toList, "f".toList, "a b".toList, "c".toList, [], []⟩
      "a  b".toList = Except.ok "c".toList ∧
    ¬("c".toList = "a  b".toList) := by decide

/-- C3 (amended): `applyInstruction` is a pure total function returning a
string for every instruction whose Update-case `replace` is free of
backslashes; for such instructions it never produces an error.  (As stated
over all field contents the claim is refuted by `apply_raises_counterexample`:
an Update whose `replace` contains an invalid replacement-template escape
such as `\q` makes `pattern.subn` raise `re.error`.) -/
theorem apply_total_no_backslash (ins : CodeInstruction) (content : List Char)
    (htmpl : ins.type = "update".toList ∧ ins.find ≠ [] ∧ ins.replace ≠ [] →
      ∀ c ∈ ins.replace, ¬(c = '\\')) :
    ∃ r, applyInstruction ins content = Except.ok r := by
  simp only [applyInstruction]
  by_cases h1 : ins.type = "update".toList ∧ ins.find ≠ [] ∧ ins.replace ≠ []
  · rw [if_pos h1, parseTemplate_no_backslash ins.replace (htmpl h1)]
    exact ⟨_, rfl⟩
  · rw [if_neg h1]
    by_cases h2 : ins.type = "insert".toList ∧ ins.find ≠ [] ∧ ins.write ≠ []
    · rw [if_pos h2]
      rcases searchFirst (flexiblePattern ins.find) content with _ | ⟨p, l⟩
      · exact ⟨content, rfl⟩
      · exact ⟨_, rfl⟩
    · rw [if_neg h2]
      by_cases h3 : ins.type = "delete".toList ∧ ins.find ≠ []
      · rw [if_pos h3]
        exact ⟨_, rfl⟩
      · rw [if_neg h3]
        exact ⟨content, rfl⟩

/-- Witness for C3 (amended). -/
theorem apply_total_no_backslash_witness :
    ∃ r, applyInstruction
      ⟨"update".toList, "f".toList, "a".toList, "b".toList, [], []⟩
      "a a".toList = Except.ok r :=
  apply_total_no_backslash
    ⟨"update".toList, "f".toList, "a".toList, "b".toList, [], []⟩ "a a".toList
    (fun _ => by decide)

/-- Counterexample for C3 as stated: applying the Update instruction with
`find = "a"`, `replace = "\q"` to content `"a"` raises `re.error`
("bad escape \q") instead of returning a string: the replacement template
is parsed by `pattern.subn` and `\q` is an invalid escape. -/
theorem apply_raises_counterexample :
    applyInstruction ⟨"update".toList, "f".toList, "a".toList, ['\\', 'q'], [], []⟩
      "a".toList = Except.error REErr.badEscape := by decide

/-- C4 (amended): for every Update instruction with non-empty `find` and
non-empty `replace` containing no backslash, every non-overlapping match of
the compiled pattern is substituted by exactly the literal characters of
`replace`: the result is the literal-substitution rendering
`renderSubst (fun _ => replace) …`, which never inspects the matched text.
(As stated for every possible `replace` — "including ones containing
backslashes ... with no character of replace interpreted" — the claim is
refuted by `update_template_counterexample`: `pattern.subn` interprets
backslash escapes in the replacement.) -/
theorem update_literal_no_backslash (fn w d find replace content : List Char)
    (hf : find ≠ []) (hr : replace ≠ []) (hnb : ∀ c ∈ replace, ¬(c = '\\')) :
    applyInstruction ⟨"update".toList, fn, find, replace, w, d⟩ content =
      Except.ok (renderSubst (fun _ => replace) content
        (scanMatches (flexiblePattern find) content) 0) := by
  simp only [applyInstruction]
  rw [if_pos (⟨trivial, hf, hr⟩ : True ∧ find ≠ [] ∧ replace ≠ [])]
  rw [parseTemplate_no_backslash replace hnb]
  have hcongr := renderSubst_congr (expandTemplate (replace.map TItem.ch))
    (fun _ => replace) content
    (fun m => expandTemplate_map_ch replace m)
    (scanMatches (flexiblePattern find) content) 0
  exact congrArg Except.ok hcongr

/-- Witness for C4 (amended): replacing `"a"` by `"b"` in `"a a"` yields
`"b b"`, the literal-substitution rendering. -/
theorem update_literal_no_backslash_witness :
    applyInstruction ⟨"update".toList, "f".toList, "a".toList, "b".toList, [], []⟩
      "a a".toList = Except.ok "b b".toList := by
  have h := update_literal_no_backslash "f".toList [] [] "a".toList "b".toList
    "a a".toList (by decide) (by decide) (by decide)
  exact h.trans (by decide)

/-- Counterexample for C4 as stated: with `replace` the two characters
`\` `n`, the match of `"a"` in content `"a"` is substituted by the single
newline character (the template escape `\n` is interpreted), not by the
literal two-character `replace` text. -/
theorem update_template_counterexample :
    applyInstruction ⟨"update".toList, "f".toList, "a".toList, ['\\', 'n'], [], []⟩
      "a".toList = Except.ok ['\n'] ∧ ¬(['\n'] = ['\\', 'n']) := by decide

theorem matchLenF_le : ∀ (fuel : Nat) (ps : List PatElem) (cs : List Char) (n : Nat),
    matchLenF fuel ps cs = some n → n ≤ cs.length := by
  intro fuel
  induction fuel with
  | zero => intro ps cs n h; simp [matchLenF] at h
  | succ fuel ih =>
      intro ps cs n h
      cases ps with
      | nil =>
          simp [matchLenF] at h
          omega
      | cons e ps' =>
          cases e with
          | lit l =>
              simp only [matchLenF] at h
              by_cases hp : l.isPrefixOf cs
              · rw [if_pos hp] at h
                rcases Option.map_eq_some'.mp h with ⟨m, hm, rfl⟩
                have h1 := ih ps' (cs.drop l.length) m hm
                have h2 : l.length ≤ cs.length := by
                  obtain ⟨rest, hrest⟩ := List.isPrefixOf_iff_prefix.mp hp
                  subst hrest
                  simp
                simp at h1
                omega
              · rw [if_neg hp] at h
                simp at h
          | ws =>
              cases cs with
              | nil => simp [matchLenF] at h
              | cons c rest =>
                  simp only [matchLenF] at h
                  by_cases hsp : pyIsSpace c
                  · rw [if_pos hsp] at h
                    rcases hinner : matchLenF fuel (PatElem.ws :: ps') rest with _ | n'
                    · rw [hinner] at h
                      rcases Option.map_eq_some'.mp h with ⟨m, hm, rfl⟩
                      have := ih ps' rest m hm
                      simp
                      omega
                    · rw [hinner] at h
                      injection h with h2
                      have := ih (PatElem.ws :: ps') rest n' hinner
                      simp
                      omega
                  · rw [if_neg hsp] at h
                    simp at h
          | nl =>
              cases cs with
              | nil => simp [matchLenF] at h
              | cons c1 cs1 =>
                  simp only [matchLenF] at h
                  split at h
                  · rename_i rest heq
                    have e2 : cs1 = '\n' :: rest := by
                      injection heq with _ e2
                    rcases Option.map_eq_some'.mp h with ⟨m, hm, rfl⟩
                    have := ih ps' rest m hm
                    simp [e2]
                    omega
                  · rename_i rest heq
                    have e2 : cs1 = rest := by
                      injection heq with _ e2
                    rcases Option.map_eq_some'.mp h with ⟨m, hm, rfl⟩
                    have := ih ps' rest m hm
                    simp [e2]
                    omega
                  · simp at h

theorem matchLen_le (ps : List PatElem) (cs : List Char) (n : Nat)
    (h : matchLen ps cs = some n) : n ≤ cs.length :=
  matchLenF_le _ ps cs n h

theorem scanMatchesF_succ_zero (fuel : Nat) (ps : List PatElem) (cs : List Char)
    (pos : Nat) (hml : matchLen ps (cs.drop pos) = some 0) :
    scanMatchesF (fuel + 1) ps cs pos =
      (pos, 0) :: (if pos < cs.length then scanMatchesF fuel ps cs (pos + 1) else []) := by
  simp only [scanMatchesF]
  rw [hml]
  rfl

theorem scanMatchesF_succ_pos (fuel : Nat) (ps : List PatElem) (cs : List Char)
    (pos l : Nat) (hml : matchLen ps (cs.drop pos) = some l) (hl : ¬(l = 0)) :
    scanMatchesF (fuel + 1) ps cs pos = (pos, l) :: scanMatchesF fuel ps cs (pos + l) := by
  simp only [scanMatchesF]
  rw [hml]
  exact if_neg hl

theorem scanMatchesF_succ_none (fuel : Nat) (ps : List PatElem) (cs : List Char)
    (pos : Nat) (hml : matchLen ps (cs.drop pos) = none) :
    scanMatchesF (fuel + 1) ps cs pos =
      if pos < cs.length then scanMatchesF fuel ps cs (pos + 1) else [] := by
  simp only [scanMatchesF]
  rw [hml]

theorem scanMatchesF_facts : ∀ (fuel : Nat) (ps : List PatElem) (cs : List Char)
    (pos : Nat) (ms : List (Nat × Nat)), pos ≤ cs.length →
    scanMatchesF fuel ps cs pos = ms →
    (∀ m ∈ ms, pos ≤ m.1 ∧ m.1 + m.2 ≤ cs.length ∧
      matchLen ps (cs.drop m.1) = some m.2) ∧
    ms.Chain' (fun m m' => m.1 + m.2 ≤ m'.1) := by
  intro fuel
  induction fuel with
  | zero =>
      intro ps cs pos ms _ h
      simp [scanMatchesF] at h
      subst h
      simp
  | succ fuel ih =>
      intro ps cs pos ms hpos h
      rcases hml : matchLen ps (cs.drop pos) with _ | l
      · rw [scanMatchesF_succ_none fuel ps cs pos hml] at h
        by_cases hlt : pos < cs.length
        · rw [if_pos hlt] at h
          obtain ⟨h1, h2⟩ := ih ps cs (pos + 1) ms (by omega) h
          exact ⟨fun m hm => ⟨by have := (h1 m hm).1; omega, (h1 m hm).2.1, (h1 m hm).2.2⟩, h2⟩
        · rw [if_neg hlt] at h
          subst h
          simp
      · have hako : l ≤ cs.length - pos := by
          have := matchLen_le ps (cs.drop pos) l hml
          simp at this
          omega
        by_cases hl : l = 0
        · subst hl
          rw [scanMatchesF_succ_zero fuel ps cs pos hml] at h
          by_cases hlt : pos < cs.length
          · rw [if_pos hlt] at h
            rcases hrest : scanMatchesF fuel ps cs (pos + 1) with _ | ⟨m0, ms0⟩
            · rw [hrest] at h
              subst h
              refine ⟨?_, by simp⟩
              intro m hm
              simp at hm
              subst hm
              exact ⟨Nat.le_refl _, by omega, hml⟩
            · rw [hrest] at h
              subst h
              obtain ⟨h1, h2⟩ := ih ps cs (pos + 1) (m0 :: ms0) (by omega) hrest
              constructor
              · intro m hm
                rcases List.mem_cons.mp hm with rfl | hm2
                · exact ⟨Nat.le_refl _, by omega, hml⟩
                · have := h1 m hm2
                  exact ⟨by omega, this.2.1, this.2.2⟩
              · refine List.Chain'.cons ?_ h2
                have := (h1 m0 (by simp)).1
                omega
          · rw [if_neg hlt] at h
            subst h
            refine ⟨?_, by simp⟩
            intro m hm
            simp at hm
            subst hm
            exact ⟨Nat.le_refl _, by omega, hml⟩
        · rw [scanMatchesF_succ_pos fuel ps cs pos l hml hl] at h
          rcases hrest : scanMatchesF fuel ps cs (pos + l) with _ | ⟨m0, ms0⟩
          · rw [hrest] at h
            subst h
            refine ⟨?_, by simp⟩
            intro m hm
            simp at hm
            subst hm
            exact ⟨Nat.le_refl _, by omega, hml⟩
          · rw [hrest] at h
            subst h
            obtain ⟨h1, h2⟩ := ih ps cs (pos + l) (m0 :: ms0) (by omega) hrest
            constructor
            · intro m hm
              rcases List.mem_cons.mp hm with rfl | hm2
              · exact ⟨Nat.le_refl _, by omega, hml⟩
              · have := h1 m hm2
                exact ⟨by omega, this.2.1, this.2.2⟩
            · refine List.Chain'.cons ?_ h2
              have := (h1 m0 (by simp)).1
              omega

theorem five_split (cs : List Char) (p1 l1 p2 l2 : Nat)
    (h1 : p1 + l1 ≤ p2) (h2 : p2 + l2 ≤ cs.length) :
    cs = cs.take p1 ++ (cs.drop p1).take l1 ++
      (cs.drop (p1 + l1)).take (p2 - (p1 + l1)) ++
      (cs.drop p2).take l2 ++ cs.drop (p2 + l2) := by
  have e1 : cs = cs.take p1 ++ cs.drop p1 := (List.take_append_drop p1 cs).symm
  have e2 : cs.drop p1 = (cs.drop p1).take l1 ++ cs.drop (p1 + l1) := by
    have := (List.take_append_drop l1 (cs.drop p1)).symm
    rw [List.drop_drop] at this
    exact this
  have e3 : cs.drop (p1 + l1) = (cs.drop (p1 + l1)).take (p2 - (p1 + l1)) ++
      cs.drop p2 := by
    have := (List.take_append_drop (p2 - (p1 + l1)) (cs.drop (p1 + l1))).symm
    rw [List.drop_drop] at this
    have e : p1 + l1 + (p2 - (p1 + l1)) = p2 := by omega
    rw [e] at this
    exact this
  have e4 : cs.drop p2 = (cs.drop p2).take l2 ++ cs.drop (p2 + l2) := by
    have := (List.take_append_drop l2 (cs.drop p2)).symm
    rw [List.drop_drop] at this
    exact this
  conv_lhs => rw [e1, e2, e3, e4]
  simp [List.append_assoc]

theorem occCountF_pos_occurs : ∀ (fuel : Nat) (w hay : List Char),
    1 ≤ occCountF fuel w hay → occursSub w hay := by
  intro fuel
  induction fuel with
  | zero => intro w hay h; simp [occCountF] at h
  | succ fuel ih =>
      intro w hay h
      cases hay with
      | nil => simp [occCountF] at h
      | cons c rest =>
          simp only [occCountF] at h
          by_cases hc : w.isPrefixOf (c :: rest) ∧ w ≠ []
          · obtain ⟨b, hb⟩ := List.isPrefixOf_iff_prefix.mp hc.1
            exact ⟨[], b, by simp [hb.symm]⟩
          · rw [if_neg hc] at h
            obtain ⟨a, b, hab⟩ := ih w rest h
            exact ⟨c :: a, b, by simp [hab]⟩

theorem occCount_zero_of_not_occurs (w hay : List Char)
    (h : ¬ occursSub w hay) : occCount w hay = 0 := by
  by_contra hne
  refine h (occCountF_pos_occurs (hay.length + 1) w hay ?_)
  simp only [occCount] at hne
  omega

theorem occCount_one_of_copy : ∀ (fuel : Nat) (w x y : List Char), w ≠ [] →
    (x ++ w ++ y).length < fuel → 1 ≤ occCountF fuel w (x ++ w ++ y) := by
  intro fuel
  induction fuel with
  | zero => intro w x y _ h; omega
  | succ fuel ih =>
      intro w x y hw hlen
      cases x with
      | nil =>
          cases w with
          | nil => exact absurd rfl hw
          | cons wc w' =>
              have hp : (wc :: w').isPrefixOf ((wc :: w') ++ y) :=
                List.isPrefixOf_iff_prefix.mpr ⟨y, rfl⟩
              simp only [List.nil_append, occCountF]
              rw [if_pos ⟨by simpa using hp, hw⟩]
              omega
      | cons c x' =>
          simp only [List.cons_append, occCountF, List.append_eq]
          by_cases hc : w.isPrefixOf (c :: (x' ++ w ++ y)) ∧ w ≠ []
          · rw [if_pos hc]
            omega
          · rw [if_neg hc]
            have := ih w x' y hw (by simp at hlen ⊢; omega)
            simpa using this

theorem occCount_two_of_copies : ∀ (fuel : Nat) (w a b c : List Char), w ≠ [] →
    (a ++ w ++ b ++ w ++ c).length < fuel →
    2 ≤ occCountF fuel w (a ++ w ++ b ++ w ++ c) := by
  intro fuel
  induction fuel with
  | zero => intro w a b c _ h; omega
  | succ fuel ih =>
      intro w a b c hw hlen
      cases a with
      | nil =>
          cases hwc : w with
          | nil => exact absurd hwc hw
          | cons wc w' =>
              rw [← hwc]
              have hp : w.isPrefixOf (w ++ (b ++ w ++ c)) :=
                List.isPrefixOf_iff_prefix.mpr ⟨b ++ w ++ c, by simp⟩
              have hshape : ([] : List Char) ++ w ++ b ++ w ++ c = w ++ (b ++ w ++ c) := by
                simp [List.append_assoc]
              rw [hshape]
              cases hwcs : w ++ (b ++ w ++ c) with
              | nil =>
                  exfalso
                  rw [hwc] at hwcs
                  simp at hwcs
              | cons z zs =>
                  simp only [occCountF]
                  rw [← hwcs]
                  rw [if_pos ⟨hp, hw⟩]
                  have hdrop : (w ++ (b ++ w ++ c)).drop w.length = b ++ w ++ c := by
                    simp
                  rw [hdrop]
                  have : 1 ≤ occCountF fuel w (b ++ w ++ c) := by
                    refine occCount_one_of_copy fuel w b c hw ?_
                    have hwl : w.length = w'.length + 1 := by rw [hwc]; simp
                    rw [hwc] at hlen
                    simp at hlen ⊢
                    omega
                  omega
      | cons a0 a' =>
          have hshape : (a0 :: a') ++ w ++ b ++ w ++ c =
              a0 :: (a' ++ w ++ b ++ w ++ c) := by simp [List.append_assoc]
          rw [hshape]
          simp only [occCountF]
          by_cases hc : w.isPrefixOf (a0 :: (a' ++ w ++ b ++ w ++ c)) ∧ w ≠ []
          · rw [if_pos hc]
            have hlw : w.length ≤ ((a0 :: a') ++ w ++ b).length := by
              simp
              omega
            have hdrop : (a0 :: (a' ++ w ++ b ++ w ++ c)).drop w.length =
                (((a0 :: a') ++ w ++ b).drop w.length) ++ w ++ c := by
              have e : a0 :: (a' ++ w ++ b ++ w ++ c) =
                  ((a0 :: a') ++ w ++ b) ++ (w ++ c) := by
                simp [List.append_assoc]
              rw [e, List.drop_append_of_le_length hlw]
              simp [List.append_assoc]
            rw [hdrop]
            have : 1 ≤ occCountF fuel w ((((a0 :: a') ++ w ++ b).drop w.length) ++ w ++ c) := by
              refine occCount_one_of_copy fuel w _ c hw ?_
              have hwlen : 1 ≤ w.length := List.length_pos.mpr hw
              simp at hlen ⊢
              omega
            omega
          · rw [if_neg hc]
            have := ih w a' b c hw (by simp at hlen ⊢; omega)
            simpa using this

/-- Evaluation of the update branch for a well-formed template: shared by
several developments below. -/
theorem update_eval (fn w d find replace content : List Char)
    (hf : find ≠ []) (hr : replace ≠ []) (hnb : ∀ c ∈ replace, ¬(c = '\\')) :
    applyInstruction ⟨"update".toList, fn, find, replace, w, d⟩ content =
      Except.ok (renderSubst (fun _ => replace) content
        (scanMatches (flexiblePattern find) content) 0) := by
  simp only [applyInstruction]
  rw [if_pos (⟨trivial, hf, hr⟩ : True ∧ find ≠ [] ∧ replace ≠ [])]
  rw [parseTemplate_no_backslash replace hnb]
  exact congrArg Except.ok (renderSubst_congr (expandTemplate (replace.map TItem.ch))
    (fun _ => replace) content (fun m => expandTemplate_map_ch replace m)
    (scanMatches (flexiblePattern find) content) 0)

/-- C2 (amended): for every content in which the pattern compiled from a
non-empty `find` has exactly two (non-overlapping) matches, an Update with
non-empty, backslash-free `replace` rewrites both of them: the content
splits as `g0 ++ m1 ++ g1 ++ m2 ++ g2` around the two matched segments, the
result is `g0 ++ replace ++ g1 ++ replace ++ g2`, the result contains at
least two occurrences of `replace`, and it contains zero occurrences of
`find`'s literal text provided `replace` (with the surrounding gaps) does
not reintroduce it.  (The original claim's "exactly two occurrences of
replace" is refuted by `update_two_occurrences_counterexample` — a gap can
already contain `replace` — and its unconditional quantification over
`replace` fails for backslash templates, see `update_template_counterexample`.) -/
theorem update_replace_all (fn w d find replace content : List Char)
    (p1 l1 p2 l2 : Nat)
    (hf : find ≠ []) (hr : replace ≠ []) (hnb : ∀ c ∈ replace, ¬(c = '\\'))
    (hscan : scanMatches (flexiblePattern find) content = [(p1, l1), (p2, l2)]) :
    content = content.take p1 ++ (content.drop p1).take l1 ++
        (content.drop (p1 + l1)).take (p2 - (p1 + l1)) ++
        (content.drop p2).take l2 ++ content.drop (p2 + l2) ∧
    applyInstruction ⟨"update".toList, fn, find, replace, w, d⟩ content =
      Except.ok (content.take p1 ++ replace ++
        (content.drop (p1 + l1)).take (p2 - (p1 + l1)) ++ replace ++
        content.drop (p2 + l2)) ∧
    2 ≤ occCount replace (content.take p1 ++ replace ++
        (content.drop (p1 + l1)).take (p2 - (p1 + l1)) ++ replace ++
        content.drop (p2 + l2)) ∧
    (¬ occursSub find (content.take p1 ++ replace ++
        (content.drop (p1 + l1)).take (p2 - (p1 + l1)) ++ replace ++
        content.drop (p2 + l2)) →
      occCount find (content.take p1 ++ replace ++
        (content.drop (p1 + l1)).take (p2 - (p1 + l1)) ++ replace ++
        content.drop (p2 + l2)) = 0) := by
  obtain ⟨hmem, hchain⟩ := scanMatchesF_facts (content.length + 2)
    (flexiblePattern find) content 0 [(p1, l1), (p2, l2)] (by omega) hscan
  have f2 := hmem (p2, l2) (by simp)
  have h12 : p1 + l1 ≤ p2 := (List.chain'_cons.mp hchain).1
  have hlen2 : p2 + l2 ≤ content.length := f2.2.1
  refine ⟨five_split content p1 l1 p2 l2 h12 hlen2, ?_, ?_, ?_⟩
  · have happ := update_eval fn w d find replace content hf hr hnb
    rw [hscan] at happ
    refine happ.trans (congrArg Except.ok ?_)
    simp [renderSubst, List.append_assoc]
  · exact occCount_two_of_copies _ replace (content.take p1)
      ((content.drop (p1 + l1)).take (p2 - (p1 + l1)))
      (content.drop (p2 + l2)) hr (by omega)
  · intro hno
    exact occCount_zero_of_not_occurs find _ hno

/-- Counterexample for C2 as stated: `find = "a"`, `replace = "b"`, content
`"b a a"` has exactly two pattern matches; the result `"b b b"` contains
zero occurrences of `"a"` but three occurrences of `"b"`, not two. -/
theorem update_two_occurrences_counterexample :
    scanMatches (flexiblePattern "a".toList) "b a a".toList = [(2, 1), (4, 1)] ∧
    applyInstruction ⟨"update".toList, "f".toList, "a".toList, "b".toList, [], []⟩
      "b a a".toList = Except.ok "b b b".toList ∧
    occCount "a".toList "b b b".toList = 0 ∧
    ¬(occCount "b".toList "b b b".toList = 2) := by decide

/-- Witness for C2 (amended): both occurrences of `"a"` in `"a a"` are
rewritten to `"c"`. -/
theorem update_replace_all_witness :
    (scanMatches (flexiblePattern "a".toList) "a a".toList = [(0, 1), (2, 1)]) ∧
    applyInstruction ⟨"update".toList, "f".toList, "a".toList, "c".toList, [], []⟩
      "a a".toList = Except.ok ("a a".toList.take 0 ++ "c".toList ++
        ("a a".toList.drop 1).take 1 ++ "c".toList ++ "a a".toList.drop 3) := by
  refine ⟨by decide, ?_⟩
  exact (update_replace_all "f".toList [] [] "a".toList "c".toList "a a".toList
    0 1 2 1 (by decide) (by decide) (by decide) (by decide)).2.1

theorem matchLenF_litpat (f : Nat) (w cs : List Char) :
    matchLenF (f + 3) [PatElem.lit [], PatElem.lit w] cs =
      if w.isPrefixOf cs then some w.length else none := by
  by_cases hp : w.isPrefixOf cs <;> simp [matchLenF, hp]

theorem matchLen_litpat (w cs : List Char) :
    matchLen [PatElem.lit [], PatElem.lit w] cs =
      if w.isPrefixOf cs then some w.length else none := by
  show matchLenF ([PatElem.lit [], PatElem.lit w].length + cs.length + 1) _ _ = _
  have he : ([PatElem.lit [], PatElem.lit w] : List PatElem).length + cs.length + 1 =
      cs.length + 3 := by simp; omega
  rw [he]
  exact matchLenF_litpat cs.length w cs

theorem scanMatchesF_nil_spec : ∀ (fuel : Nat) (ps : List PatElem) (cs : List Char)
    (pos : Nat), cs.length + 2 ≤ fuel + pos → scanMatchesF fuel ps cs pos = [] →
    ∀ q, pos ≤ q → q ≤ cs.length → matchLen ps (cs.drop q) = none := by
  intro fuel
  induction fuel with
  | zero => intro ps cs pos hf _ q hq1 hq2; omega
  | succ fuel ih =>
      intro ps cs pos hf h q hq1 hq2
      rcases hml : matchLen ps (cs.drop pos) with _ | l
      · rw [scanMatchesF_succ_none fuel ps cs pos hml] at h
        by_cases hlt : pos < cs.length
        · rw [if_pos hlt] at h
          by_cases hq : q = pos
          · subst hq
            exact hml
          · exact ih ps cs (pos + 1) (by omega) h q (by omega) hq2
        · have : q = pos := by omega
          subst this
          exact hml
      · by_cases hl : l = 0
        · subst hl
          rw [scanMatchesF_succ_zero fuel ps cs pos hml] at h
          simp at h
        · rw [scanMatchesF_succ_pos fuel ps cs pos l hml hl] at h
          simp at h

theorem occursSub_litpat_scan_ne (w cs : List Char) (hw : w ≠ [])
    (hocc : occursSub w cs) :
    scanMatches [PatElem.lit [], PatElem.lit w] cs ≠ [] := by
  obtain ⟨a, b, rfl⟩ := hocc
  intro hnil
  have hq := scanMatchesF_nil_spec ((a ++ w ++ b).length + 2) _ _ 0 (by omega) hnil
    a.length (by omega) (by simp)
  have hdrop : (a ++ w ++ b).drop a.length = w ++ b := by
    have he : a ++ w ++ b = a ++ (w ++ b) := by simp [List.append_assoc]
    rw [he, List.drop_left]
  rw [hdrop, matchLen_litpat] at hq
  have hp : w.isPrefixOf (w ++ b) := List.isPrefixOf_iff_prefix.mpr ⟨b, rfl⟩
  rw [if_pos hp] at hq
  exact absurd hq (by simp)

theorem applyList_pair (i j : CodeInstruction) (c : List Char) :
    applyList [i, j] c = (applyInstruction i c).bind (applyInstruction j) := by
  cases hi : applyInstruction i c with
  | error e =>
      simp only [applyList, hi]
      rfl
  | ok c' =>
      have hb : (Except.ok c' : Except REErr (List Char)).bind (applyInstruction j) =
          applyInstruction j c' := rfl
      simp only [applyList, hi, hb]
      cases hj : applyInstruction j c' with
      | error e => rfl
      | ok c'' => rfl

/-- C8: instructions on the same file are applied as a left fold in batch
order, each instruction's output content becoming the next one's input; in
particular, for any content in which `"X"` occurs, the sequence
[Update `"X"`→`"Y"`, Update `"Y"`→`"Z"`] succeeds and its final content
contains `"Z"`. -/
theorem sequential_fold_same_file (content : List Char)
    (hocc : occursSub "X".toList content) :
    applyList [⟨"update".toList, "f".toList, "X".toList, "Y".toList, [], []⟩,
        ⟨"update".toList, "f".toList, "Y".toList, "Z".toList, [], []⟩] content =
      (applyInstruction
          ⟨"update".toList, "f".toList, "X".toList, "Y".toList, [], []⟩ content).bind
        (applyInstruction
          ⟨"update".toList, "f".toList, "Y".toList, "Z".toList, [], []⟩) ∧
    ∃ r, applyList [⟨"update".toList, "f".toList, "X".toList, "Y".toList, [], []⟩,
        ⟨"update".toList, "f".toList, "Y".toList, "Z".toList, [], []⟩] content =
      Except.ok r ∧ occursSub "Z".toList r := by
  have h1 := update_eval "f".toList [] [] "X".toList "Y".toList content
    (by decide) (by decide) (by decide)
  have hpat1 : flexiblePattern "X".toList = [PatElem.lit [], PatElem.lit ['X']] := by
    decide
  have hne1 : scanMatches (flexiblePattern "X".toList) content ≠ [] := by
    rw [hpat1]
    exact occursSub_litpat_scan_ne "X".toList content (by decide) hocc
  rcases hs1 : scanMatches (flexiblePattern "X".toList) content with _ | ⟨⟨p, l⟩, ms⟩
  · exact absurd hs1 hne1
  rw [hs1] at h1
  have hoccY : occursSub "Y".toList
      (renderSubst (fun _ => "Y".toList) content ((p, l) :: ms) 0) :=
    ⟨content.take p, renderSubst (fun _ => "Y".toList) content ms (p + l),
      by simp [renderSubst, List.append_assoc]⟩
  have h2 := update_eval "f".toList [] [] "Y".toList "Z".toList
    (renderSubst (fun _ => "Y".toList) content ((p, l) :: ms) 0)
    (by decide) (by decide) (by decide)
  have hpat2 : flexiblePattern "Y".toList = [PatElem.lit [], PatElem.lit ['Y']] := by
    decide
  have hne2 : scanMatches (flexiblePattern "Y".toList)
      (renderSubst (fun _ => "Y".toList) content ((p, l) :: ms) 0) ≠ [] := by
    rw [hpat2]
    exact occursSub_litpat_scan_ne "Y".toList _ (by decide) hoccY
  rcases hs2 : scanMatches (flexiblePattern "Y".toList)
      (renderSubst (fun _ => "Y".toList) content ((p, l) :: ms) 0) with _ | ⟨⟨p2, l2⟩, ms2⟩
  · exact absurd hs2 hne2
  rw [hs2] at h2
  have hoccZ : occursSub "Z".toList
      (renderSubst (fun _ => "Z".toList)
        (renderSubst (fun _ => "Y".toList) content ((p, l) :: ms) 0)
        ((p2, l2) :: ms2) 0) :=
    ⟨(renderSubst (fun _ => "Y".toList) content ((p, l) :: ms) 0).take p2,
      renderSubst (fun _ => "Z".toList)
        (renderSubst (fun _ => "Y".toList) content ((p, l) :: ms) 0) ms2 (p2 + l2),
      by simp [renderSubst, List.append_assoc]⟩
  have hpair := applyList_pair
    ⟨"update".toList, "f".toList, "X".toList, "Y".toList, [], []⟩
    ⟨"update".toList, "f".toList, "Y".toList, "Z".toList, [], []⟩ content
  refine ⟨hpair, _, ?_, hoccZ⟩
  rw [hpair, h1]
  exact h2

/-- Witness for C8: content `"A X B"` is rewritten to `"A Y B"` and then to
`"A Z B"`, which contains `"Z"`. -/
theorem sequential_fold_same_file_witness :
    occursSub "X".toList "A X B".toList ∧
    ∃ r, applyList [⟨"update".toList, "f".toList, "X".toList, "Y".toList, [], []⟩,
        ⟨"update".toList, "f".toList, "Y".toList, "Z".toList, [], []⟩] "A X B".toList =
      Except.ok r ∧ occursSub "Z".toList r := by
  have hocc : occursSub "X".toList "A X B".toList := ⟨"A ".toList, " B".toList, by decide⟩
  exact ⟨hocc, (sequential_fold_same_file "A X B".toList hocc).2⟩

theorem fsGet_fsSet_ne : ∀ (fs : FS) (f g w : List Char), ¬(g = f) →
    fsGet (fsSet fs f w) g = fsGet fs g := by
  intro fs
  induction fs with
  | nil => intro f g w _; rfl
  | cons kv rest ih =>
      intro f g w hgf
      obtain ⟨k, v⟩ := kv
      simp only [fsSet]
      by_cases hk : k = f
      · rw [if_pos hk]
        simp only [fsGet]
        rw [if_neg (by rw [hk]; exact fun h => hgf h.symm),
          if_neg (by rw [hk]; exact fun h => hgf h.symm)]
      · rw [if_neg hk]
        simp only [fsGet]
        by_cases hg : k = g
        · rw [if_pos hg, if_pos hg]
        · rw [if_neg hg, if_neg hg]
          exact ih f g w hgf

theorem fsGet_fsSet_eq : ∀ (fs : FS) (f w c : List Char), fsGet fs f = some c →
    fsGet (fsSet fs f w) f = some w := by
  intro fs
  induction fs with
  | nil => intro f w c h; simp [fsGet] at h
  | cons kv rest ih =>
      intro f w c h
      obtain ⟨k, v⟩ := kv
      simp only [fsGet] at h
      simp only [fsSet]
      by_cases hk : k = f
      · rw [if_pos hk]
        simp only [fsGet]
        rw [if_pos hk]
      · rw [if_neg hk]
        simp only [fsGet]
        rw [if_neg hk] at h
        rw [if_neg hk]
        exact ih f w c h

theorem processGroup_other (instrs : List CodeInstruction) (fs : FS)
    (f g : List Char) (hgf : ¬(g = f)) :
    fsGet (processGroup instrs fs f) g = fsGet fs g := by
  simp only [processGroup]
  cases hg : fsGet fs f with
  | none => rfl
  | some c =>
      show fsGet (match applyList (groupOf instrs f) c with
        | Except.ok r => fsSet fs f r
        | Except.error _ => fs) g = fsGet fs g
      cases ha : applyList (groupOf instrs f) c with
      | ok r => exact fsGet_fsSet_ne fs f g r hgf
      | error e => rfl

theorem processGroup_self (instrs : List CodeInstruction) (fs : FS) (f : List Char) :
    fsGet (processGroup instrs fs f) f =
      match fsGet fs f with
      | none => none
      | some c => some (match applyList (groupOf instrs f) c with
          | Except.ok r => r
          | Except.error _ => c) := by
  simp only [processGroup]
  cases hg : fsGet fs f with
  | none => exact hg
  | some c =>
      show fsGet (match applyList (groupOf instrs f) c with
        | Except.ok r => fsSet fs f r
        | Except.error _ => fs) f =
        some (match applyList (groupOf instrs f) c with
          | Except.ok r => r
          | Except.error _ => c)
      cases ha : applyList (groupOf instrs f) c with
      | ok r => exact fsGet_fsSet_eq fs f r c hg
      | error e => exact hg

theorem foldl_processGroup_not_mem (instrs : List CodeInstruction) :
    ∀ (keys : List (List Char)) (fs : FS) (f : List Char), f ∉ keys →
    fsGet (keys.foldl (processGroup instrs) fs) f = fsGet fs f := by
  intro keys
  induction keys with
  | nil => intro fs f _; rfl
  | cons k ks ih =>
      intro fs f hf
      simp only [List.foldl_cons]
      rw [ih (processGroup instrs fs k) f (fun h => hf (List.mem_cons_of_mem _ h))]
      exact processGroup_other instrs fs k f (fun h => hf (h ▸ List.mem_cons_self k ks))

theorem dedupFirst_mem : ∀ (ks seen : List (List Char)) (k : List Char),
    k ∈ dedupFirst seen ks ↔ (k ∈ ks ∧ k ∉ seen) := by
  intro ks
  induction ks with
  | nil => intro seen k; simp [dedupFirst]
  | cons k0 ks' ih =>
      intro seen k
      simp only [dedupFirst]
      by_cases h0 : k0 ∈ seen
      · rw [if_pos h0, ih]
        constructor
        · rintro ⟨h1, h2⟩
          exact ⟨List.mem_cons_of_mem _ h1, h2⟩
        · rintro ⟨h1, h2⟩
          rcases List.mem_cons.mp h1 with rfl | h3
          · exact absurd h0 h2
          · exact ⟨h3, h2⟩
      · rw [if_neg h0]
        constructor
        · intro h1
          rcases List.mem_cons.mp h1 with rfl | h2
          · exact ⟨by simp, h0⟩
          · obtain ⟨h3, h4⟩ := (ih (k0 :: seen) k).mp h2
            exact ⟨List.mem_cons_of_mem _ h3,
              fun h5 => h4 (List.mem_cons_of_mem _ h5)⟩
        · rintro ⟨h1, h2⟩
          rcases List.mem_cons.mp h1 with rfl | h3
          · exact List.mem_cons_self _ _
          · by_cases hk0 : k = k0
            · subst hk0
              exact List.mem_cons_self _ _
            · refine List.mem_cons_of_mem _ ((ih (k0 :: seen) k).mpr ⟨h3, ?_⟩)
              intro h4
              rcases List.mem_cons.mp h4 with h5 | h5
              · exact hk0 h5
              · exact h2 h5

theorem dedupFirst_nodup : ∀ (ks seen : List (List Char)),
    (dedupFirst seen ks).Nodup := by
  intro ks
  induction ks with
  | nil => intro seen; simp [dedupFirst]
  | cons k0 ks' ih =>
      intro seen
      simp only [dedupFirst]
      by_cases h0 : k0 ∈ seen
      · rw [if_pos h0]
        exact ih seen
      · rw [if_neg h0]
        refine List.nodup_cons.mpr ⟨?_, ih (k0 :: seen)⟩
        intro hmem
        exact ((dedupFirst_mem ks' (k0 :: seen) k0).mp hmem).2 (by simp)

/-- C9: per-file isolation of `_apply_instructions`.  The final content of
any file `f` (with a non-empty name) depends only on its own initial
content and its own instruction group: if `f` does not exist it stays
missing (its group is skipped with a warning); if applying its group
raises, the error is caught and `f` keeps its old content; otherwise `f`
holds the folded result — regardless of what happens to every other file
group (missing files or errors elsewhere cannot affect `f`, and no error
propagates out of the batch call, which is a total function here). -/
theorem file_group_isolation (instrs : List CodeInstruction) (fs : FS)
    (f : List Char) (hf : f ≠ []) :
    fsGet (applyInstructions instrs fs) f =
      match fsGet fs f with
      | none => none
      | some c => some (match applyList (groupOf instrs f) c with
          | Except.ok r => r
          | Except.error _ => c) := by
  unfold applyInstructions
  by_cases hmem : f ∈ groupKeys instrs
  · obtain ⟨ks1, ks2, hsplit⟩ := List.append_of_mem hmem
    have hnd : (groupKeys instrs).Nodup := dedupFirst_nodup _ _
    rw [hsplit] at hnd
    have hf1 : f ∉ ks1 := by
      rw [List.nodup_append] at hnd
      intro hcon
      exact hnd.2.2 hcon (by simp)
    have hf2 : f ∉ ks2 := by
      rw [List.nodup_append] at hnd
      exact (List.nodup_cons.mp hnd.2.1).1
    rw [hsplit, List.foldl_append, List.foldl_cons]
    rw [foldl_processGroup_not_mem instrs ks2 _ f hf2]
    rw [processGroup_self instrs _ f]
    rw [foldl_processGroup_not_mem instrs ks1 fs f hf1]
  · have hgrp : groupOf instrs f = [] := by
      by_contra hne
      have : ∃ i ∈ instrs, i.filename = f := by
        rcases hgo : groupOf instrs f with _ | ⟨i0, rest⟩
        · exact absurd hgo hne
        · have : i0 ∈ groupOf instrs f := by rw [hgo]; simp
          have h2 := List.of_mem_filter this
          exact ⟨i0, List.mem_of_mem_filter this, by simpa using h2⟩
      obtain ⟨i, hi, hif⟩ := this
      refine hmem ?_
      refine (dedupFirst_mem _ [] f).mpr ⟨?_, by simp⟩
      refine List.mem_map.mpr ⟨i, ?_, hif⟩
      refine List.mem_filter.mpr ⟨hi, ?_⟩
      simp [hif, hf]
    rw [foldl_processGroup_not_mem instrs (groupKeys instrs) fs f hmem, hgrp]
    cases hg : fsGet fs f with
    | none => rfl
    | some c => rfl

/-- Witness for C9: a batch targeting a missing file `"a"` and an existing
file `"b"` still rewrites `"b"` from `"X"` to `"Y"`. -/
theorem file_group_isolation_witness :
    ("b".toList ≠ ([] : List Char)) ∧
    fsGet (applyInstructions
      [⟨"update".toList, "a".toList, "X".toList, "Y".toList, [], []⟩,
       ⟨"update".toList, "b".toList, "X".toList, "Y".toList, [], []⟩]
      [("b".toList, "X".toList)]) "b".toList = some "Y".toList := by
  refine ⟨by decide, ?_⟩
  refine (file_group_isolation
    [⟨"update".toList, "a".toList, "X".toList, "Y".toList, [], []⟩,
     ⟨"update".toList, "b".toList, "X".toList, "Y".toList, [], []⟩]
    [("b".toList, "X".toList)] "b".toList (by decide)).trans ?_
  decide
